import Mathlib

/-!
# SP_Lab3: lexical scanner and classifier

A shallow embedding of `src/SP_Lab3.cpp`.

* A `std::string` is a `List Char`; `push_back` on the token vector is `++ [t]`.
* `std::regex_match` decides whether the *whole* lexeme belongs to the language of the
  pattern, so the anchors `^` and `$` of the source patterns are implied; the patterns
  are given as values of `Regex` and matched by derivatives.
* The ECMAScript wildcard `.` matches every character except the line terminators
  line feed and carriage return.
* `isspace` and `ispunct` are those of the "C" locale.
* The `for` loop of `tokenize` is a recursion on the unread suffix `code[i..]`,
  bounded by a step counter which `tokenize` sets to the length of the input;
  `scanStep` is one iteration of it.
* `writeTokensToHtml` is modelled on a file that could be opened, as the text written to
  it. `std::string::append` with a negative count throws `std::length_error`; an
  exception ends the loop with the local variables it had at the throw.
-/

namespace SPLab3

/-! ## Data model -/

/-- The enumeration `TokenType`. -/
inductive TokenType where
  | INTEGER
  | FLOAT
  | STRING
  | CHAR
  | OPERATOR
  | IDENTIFIER
  | PUNCTUATION
  | DIRECTIVE
  | KEYWORD
  | COMMENT
  | MEMBER_ACCESS
  | UNKNOWN
  deriving DecidableEq, Repr

/-- The structure `Token`: the lexeme text and its category. -/
structure Token where
  value : List Char
  type : TokenType
  deriving DecidableEq, Repr

/-! ## Regular expressions -/

/-- Regular expressions over characters; `cls p` is a one-character class. -/
inductive Regex where
  | empty : Regex
  | eps : Regex
  | cls : (Char → Bool) → Regex
  | seq : Regex → Regex → Regex
  | alt : Regex → Regex → Regex
  | star : Regex → Regex

namespace Regex

/-- Whether the expression accepts the empty string. -/
def nullable : Regex → Bool
  | empty => false
  | eps => true
  | cls _ => false
  | seq a b => a.nullable && b.nullable
  | alt a b => a.nullable || b.nullable
  | star _ => true

/-- Brzozowski derivative of an expression by one character. -/
def deriv : Regex → Char → Regex
  | empty, _ => empty
  | eps, _ => empty
  | cls p, c => if p c then eps else empty
  | seq a b, c =>
    if a.nullable then alt (seq (a.deriv c) b) (b.deriv c) else seq (a.deriv c) b
  | alt a b, c => alt (a.deriv c) (b.deriv c)
  | star a, c => seq (a.deriv c) (star a)

/-- Whole-string match, the meaning of `std::regex_match`. -/
def rmatch : Regex → List Char → Bool
  | r, [] => r.nullable
  | r, c :: s => rmatch (r.deriv c) s

/-- The pattern `r+`. -/
def plus (r : Regex) : Regex := seq r (star r)

/-- The pattern `r?`. -/
def opt (r : Regex) : Regex := alt r eps

/-- A literal character. -/
def chr (k : Char) : Regex := cls (fun c => c == k)

/-- A literal string. -/
def lit : List Char → Regex
  | [] => eps
  | [k] => chr k
  | k :: ks => seq (chr k) (lit ks)

/-- An alternation `r1|r2|...|rn`. -/
def alts : List Regex → Regex
  | [] => empty
  | [r] => r
  | r :: rs => alt r (alts rs)

/-- The characters with which a string accepted by the expression can begin. -/
def first : Regex → Char → Bool
  | empty, _ => false
  | eps, _ => false
  | cls p, c => p c
  | seq a b, c => a.first c || (a.nullable && b.first c)
  | alt a b, c => a.first c || b.first c
  | star a, c => a.first c

end Regex

open Regex

/-! ## Character classes -/

/-- A range `lo-hi` inside a bracket expression. -/
def inRange (lo hi : Char) (c : Char) : Bool :=
  decide (lo.toNat ≤ c.toNat ∧ c.toNat ≤ hi.toNat)

/-- The class `[0-9]`. -/
def isDigitC (c : Char) : Bool := inRange '0' '9' c

/-- The class `[a-zA-Z_]`. -/
def isIdentStart (c : Char) : Bool := inRange 'a' 'z' c || inRange 'A' 'Z' c || c == '_'

/-- The class `[a-zA-Z0-9_]`. -/
def isIdentRest (c : Char) : Bool :=
  inRange 'a' 'z' c || inRange 'A' 'Z' c || inRange '0' '9' c || c == '_'

/-- The wildcard `.`: any character but a line terminator. -/
def isDot (c : Char) : Bool := !(c == '\n' || c == '\r')

/-- The class `[eE]`. -/
def isExpMark (c : Char) : Bool := c == 'e' || c == 'E'

/-- The class `[+-]`. -/
def isSign (c : Char) : Bool := c == '+' || c == '-'

/-- The class `[ \t]`. -/
def isBlank (c : Char) : Bool := c == ' ' || c == '\t'

/-- The class `[^ \t]`. -/
def isNotBlank (c : Char) : Bool := !(c == ' ' || c == '\t')

/-- The class `[,;(){}<>]`. -/
def isPunctClass (c : Char) : Bool :=
  c == ',' || c == ';' || c == '(' || c == ')' || c == '{' || c == '}' || c == '<' || c == '>'

/-- The function `isspace` of the "C" locale: space, `\t`, `\n`, `\v`, `\f`, `\r`. -/
def isspace (c : Char) : Bool :=
  decide (c.toNat = 32 ∨ (9 ≤ c.toNat ∧ c.toNat ≤ 13))

/-- The function `ispunct` of the "C" locale: the printable ASCII characters that are
neither alphanumeric nor the space. -/
def ispunct (c : Char) : Bool :=
  decide ((33 ≤ c.toNat ∧ c.toNat ≤ 47) ∨ (58 ≤ c.toNat ∧ c.toNat ≤ 64) ∨
    (91 ≤ c.toNat ∧ c.toNat ≤ 96) ∨ (123 ≤ c.toNat ∧ c.toNat ≤ 126))

/-! ## The patterns of `recognizeToken` -/

/-- The set `keywords`. -/
def keywords : List (List Char) :=
  ["int".toList, "float".toList, "double".toList, "char".toList, "if".toList, "else".toList,
   "for".toList, "while".toList, "return".toList, "void".toList, "using".toList,
   "namespace".toList, "const".toList, "long long".toList]

/-- The sub-pattern `([eE][+-]?[0-9]+)?`. -/
def exponentPart : Regex :=
  opt (seq (cls isExpMark) (seq (opt (cls isSign)) (plus (cls isDigitC))))

/-- The pattern `^[0-9]+$`. -/
def intRegex : Regex := plus (cls isDigitC)

/-- The pattern `^[0-9]*\.[0-9]+([eE][+-]?[0-9]+)?$|^[0-9]+([eE][+-]?[0-9]+)?$`. -/
def floatRegex : Regex :=
  alt (seq (star (cls isDigitC)) (seq (chr '.') (seq (plus (cls isDigitC)) exponentPart)))
      (seq (plus (cls isDigitC)) exponentPart)

/-- The pattern `^".*"$`. -/
def stringRegex : Regex := seq (chr '"') (seq (star (cls isDot)) (chr '"'))

/-- The pattern `^'.'$`. -/
def charRegex : Regex := seq (chr '\'') (seq (cls isDot) (chr '\''))

/-- The pattern `^(\+|-|\*|/|=|==|!=|>|<|>=|%|\[|\]|<=|&&|!|&|\|\||::)$`. -/
def operatorRegex : Regex :=
  alts [lit "+".toList, lit "-".toList, lit "*".toList, lit "/".toList, lit "=".toList,
        lit "==".toList, lit "!=".toList, lit ">".toList, lit "<".toList, lit ">=".toList,
        lit "%".toList, lit "[".toList, lit "]".toList, lit "<=".toList, lit "&&".toList,
        lit "!".toList, lit "&".toList, lit "||".toList, lit "::".toList]

/-- The pattern `[a-zA-Z_][a-zA-Z0-9_]*`. -/
def identifierPart : Regex := seq (cls isIdentStart) (star (cls isIdentRest))

/-- The pattern `^[a-zA-Z_][a-zA-Z0-9_]*$`. -/
def identifierRegex : Regex := identifierPart

/-- The pattern `^[,;(){}<>]$`. -/
def punctuationRegex : Regex := cls isPunctClass

/-- The pattern `^#(include|define|ifdef|ifndef|endif|pragma)[ \t]+([^ \t]+).*`. -/
def directiveRegex : Regex :=
  seq (chr '#')
    (seq (alts [lit "include".toList, lit "define".toList, lit "ifdef".toList,
                lit "ifndef".toList, lit "endif".toList, lit "pragma".toList])
      (seq (plus (cls isBlank)) (seq (plus (cls isNotBlank)) (star (cls isDot)))))

/-- The pattern `^([a-zA-Z_][a-zA-Z0-9_]*)\.([a-zA-Z_][a-zA-Z0-9_]*)$`. -/
def memberAccessRegex : Regex := seq identifierPart (seq (chr '.') identifierPart)

/-! ## The classifier -/

/-- The function `recognizeToken`: the first rule that applies gives the category. -/
def recognizeToken (str : List Char) : Token :=
  if str ∈ keywords then ⟨str, .KEYWORD⟩
  else if directiveRegex.rmatch str then ⟨str, .DIRECTIVE⟩
  else if intRegex.rmatch str then ⟨str, .INTEGER⟩
  else if floatRegex.rmatch str then ⟨str, .FLOAT⟩
  else if stringRegex.rmatch str then ⟨str, .STRING⟩
  else if charRegex.rmatch str then ⟨str, .CHAR⟩
  else if memberAccessRegex.rmatch str then ⟨str, .MEMBER_ACCESS⟩
  else if operatorRegex.rmatch str then ⟨str, .OPERATOR⟩
  else if identifierRegex.rmatch str then ⟨str, .IDENTIFIER⟩
  else if punctuationRegex.rmatch str then ⟨str, .PUNCTUATION⟩
  else ⟨str, .UNKNOWN⟩

/-! ## The scanner -/

/-- The local variables of `tokenize`. -/
structure ScanState where
  tokens : List Token
  token : List Char
  insideString : Bool
  insideChar : Bool
  insideDirective : Bool
  deriving DecidableEq, Repr

/-- The statement `if (!token.empty()) { tokens.push_back(recognizeToken(token)); ... }`:
the token vector after it. The buffer is empty afterwards either way. -/
def flushPending (tokens : List Token) (token : List Char) : List Token :=
  if token.isEmpty then tokens else tokens ++ [recognizeToken token]

/-- The body of the `for` loop of `tokenize`, iterated: the first argument bounds the
number of iterations, the second is the unread input `code[i..]`. -/
def tokenizeLoop : Nat → List Char → ScanState → ScanState
  | 0, _, st => st
  | _, [], st => st
  | fuel + 1, current :: rest, st =>
    if current = '#' then
      tokenizeLoop fuel rest
        { st with tokens := flushPending st.tokens st.token, token := [current],
                  insideDirective := true }
    else if st.insideDirective then
      if current = '\n' then
        tokenizeLoop fuel rest
          { st with tokens := st.tokens ++ [recognizeToken st.token], token := [],
                    insideDirective := false }
      else
        tokenizeLoop fuel rest { st with token := st.token ++ [current] }
    else if current = '"' ∨ current = '\'' then
      if (current = '"' ∧ st.insideString = true) ∨ (current = '\'' ∧ st.insideChar = true) then
        tokenizeLoop fuel rest
          { st with tokens := st.tokens ++ [recognizeToken (st.token ++ [current])],
                    token := [], insideString := false, insideChar := false }
      else
        tokenizeLoop fuel rest
          { st with tokens := flushPending st.tokens st.token, token := [current],
                    insideString := decide (current = '"'),
                    insideChar := decide (current = '\'') }
    else if st.insideString = true ∨ st.insideChar = true then
      tokenizeLoop fuel rest { st with token := st.token ++ [current] }
    else if current = '/' ∧ rest.head? = some '/' then
      -- `token += current; token += code[i + 1];` then the `while` loop, which starts
      -- again at `code[i]` and stops at the end of the line
      let line := (current :: rest).takeWhile (fun c => decide (c ≠ '\n'))
      let after := (current :: rest).dropWhile (fun c => decide (c ≠ '\n'))
      let token := [current, '/'] ++ line
      let tokens := flushPending st.tokens st.token
      -- `continue` steps over `code[i]`, the line feed
      tokenizeLoop fuel (after.drop 1)
        { st with tokens := if token.length > 2 then tokens ++ [⟨token.drop 2, .COMMENT⟩]
                            else tokens,
                  token := [] }
    else if current = ':' ∧ rest.head? = some ':' then
      tokenizeLoop fuel (rest.drop 1)
        { st with tokens := flushPending st.tokens st.token ++ [recognizeToken [current, ':']],
                  token := [] }
    else if isspace current then
      tokenizeLoop fuel rest { st with tokens := flushPending st.tokens st.token, token := [] }
    else if ispunct current ∧ current ≠ '_' ∧ current ≠ '.' then
      tokenizeLoop fuel rest
        { st with tokens := flushPending st.tokens st.token ++ [recognizeToken [current]],
                  token := [] }
    else
      tokenizeLoop fuel rest { st with token := st.token ++ [current] }

/-- The state of `tokenize` before the loop. -/
def initState : ScanState :=
  { tokens := [], token := [], insideString := false, insideChar := false,
    insideDirective := false }

/-- The function `tokenize`. Every iteration consumes at least one character, so
`code.length` iterations read the whole input. -/
def tokenize (code : List Char) : List Token :=
  let st := tokenizeLoop code.length code initState
  flushPending st.tokens st.token


/-- One iteration of the `for` loop of `tokenize` on the current character: the unread
input and the local variables after it. It is the body of `tokenizeLoop`
(`tokenizeLoop_succ`). -/
def scanStep (current : Char) (rest : List Char) (st : ScanState) : List Char × ScanState :=
  if current = '#' then
    (rest, { st with tokens := flushPending st.tokens st.token, token := [current],
                     insideDirective := true })
  else if st.insideDirective then
    if current = '\n' then
      (rest, { st with tokens := st.tokens ++ [recognizeToken st.token], token := [],
                       insideDirective := false })
    else
      (rest, { st with token := st.token ++ [current] })
  else if current = '"' ∨ current = '\'' then
    if (current = '"' ∧ st.insideString = true) ∨ (current = '\'' ∧ st.insideChar = true) then
      (rest, { st with tokens := st.tokens ++ [recognizeToken (st.token ++ [current])],
                       token := [], insideString := false, insideChar := false })
    else
      (rest, { st with tokens := flushPending st.tokens st.token, token := [current],
                       insideString := decide (current = '"'),
                       insideChar := decide (current = '\'') })
  else if st.insideString = true ∨ st.insideChar = true then
    (rest, { st with token := st.token ++ [current] })
  else if current = '/' ∧ rest.head? = some '/' then
    (((current :: rest).dropWhile (fun c => decide (c ≠ '\n'))).drop 1,
      { st with tokens :=
                  if ([current, '/'] ++
                      (current :: rest).takeWhile (fun c => decide (c ≠ '\n'))).length > 2 then
                    flushPending st.tokens st.token ++
                      [⟨([current, '/'] ++
                          (current :: rest).takeWhile (fun c => decide (c ≠ '\n'))).drop 2,
                        .COMMENT⟩]
                  else flushPending st.tokens st.token,
                token := [] })
  else if current = ':' ∧ rest.head? = some ':' then
    (rest.drop 1,
      { st with tokens := flushPending st.tokens st.token ++ [recognizeToken [current, ':']],
                token := [] })
  else if isspace current then
    (rest, { st with tokens := flushPending st.tokens st.token, token := [] })
  else if ispunct current ∧ current ≠ '_' ∧ current ≠ '.' then
    (rest, { st with tokens := flushPending st.tokens st.token ++ [recognizeToken [current]],
                     token := [] })
  else
    (rest, { st with token := st.token ++ [current] })

/-- The state with a sequence of earlier tokens put in front of its token vector. -/
def withEarlier (pre : List Token) (st : ScanState) : ScanState :=
  { st with tokens := pre ++ st.tokens }

/-- At most one of the three mode flags is set. -/
def atMostOneMode (st : ScanState) : Bool :=
  !(st.insideString && st.insideChar) && !(st.insideString && st.insideDirective) &&
    !(st.insideChar && st.insideDirective)

/-- Whether, in the first iterations of the loop of `tokenize` (as many as the first
argument says), every `#` that the loop reads as its current character is read while
neither insideString nor insideChar is set. -/
def hashOutsideLiteral : Nat → List Char → ScanState → Bool
  | 0, _, _ => true
  | _, [], _ => true
  | fuel + 1, current :: rest, st =>
    (current != '#' || (!st.insideString && !st.insideChar)) &&
      hashOutsideLiteral fuel (scanStep current rest st).1 (scanStep current rest st).2

/-- Whether `tokenize` on this input reads no `#` inside an open string or character
literal. -/
def noHashInLiteral (code : List Char) : Bool :=
  hashOutsideLiteral code.length code initState

/-! ## The renderer -/

/-- The function `tokenTypeToColor`. -/
def tokenTypeToColor : TokenType → List Char
  | .INTEGER => "color: orange;".toList
  | .FLOAT => "color: pink;".toList
  | .STRING => "color: blue;".toList
  | .CHAR => "color: yellow;".toList
  | .OPERATOR => "color: purple;".toList
  | .IDENTIFIER => "color: darkblue;".toList
  | .PUNCTUATION => "color: black;".toList
  | .DIRECTIVE => "color: teal;".toList
  | .KEYWORD => "color: green;".toList
  | .COMMENT => "color: gray;".toList
  | .MEMBER_ACCESS => "color: darkviolet;".toList
  | .UNKNOWN => "color: red;".toList

/-- The local variables of `writeTokensToHtml`, and the text written to the file so far.
The range of `int` is not modelled: `indentLevel` is an integer. -/
structure RenderState where
  file : List Char
  currentLine : List Char
  indentLevel : Int

/-- The call `currentLine.append(indentLevel * 4, ' ')`. The count is converted to the
unsigned `size_type`; a negative `indentLevel` gives a count above `max_size()`, for which
`append` throws `std::length_error`: the result is then `none`. -/
def appendIndent (currentLine : List Char) (indentLevel : Int) : Option (List Char) :=
  if indentLevel < 0 then none
  else some (currentLine ++ List.replicate (indentLevel * 4).toNat ' ')

/-- The inner loop of the last case of `writeTokensToHtml`: every character of the value
becomes `&nbsp;` or a coloured `span`. -/
def renderChars (color : List Char) : List Char → List Char
  | [] => []
  | c :: cs =>
    (if c = ' ' then "&nbsp;".toList
     else "<span style=\"".toList ++ color ++ "\">".toList ++ [c] ++ "</span>".toList) ++
      renderChars color cs

/-- The body of the loop of `writeTokensToHtml` for one token. An exception leaves the
function: the result is then `error`, with the local variables at the throw. -/
def renderToken (st : RenderState) (token : Token) : Except RenderState RenderState :=
  if token.value = ['{'] then
    match appendIndent (st.currentLine ++ (token.value ++ "\n".toList))
        (st.indentLevel + 1) with
    | some line => .ok { st with currentLine := line, indentLevel := st.indentLevel + 1 }
    | none =>
      .error { st with currentLine := st.currentLine ++ (token.value ++ "\n".toList),
                       indentLevel := st.indentLevel + 1 }
  else if token.value = ['}'] then
    match appendIndent (st.currentLine ++ "\n".toList) (st.indentLevel - 1) with
    | some line =>
      .ok { st with currentLine := line ++ (token.value ++ "\n".toList),
                    indentLevel := st.indentLevel - 1 }
    | none =>
      .error { st with currentLine := st.currentLine ++ "\n".toList,
                       indentLevel := st.indentLevel - 1 }
  else if token.value = ";".toList ∨ token.value = ":".toList then
    match appendIndent (st.currentLine ++ (token.value ++ "\n".toList)) st.indentLevel with
    | some line => .ok { st with currentLine := line }
    | none => .error { st with currentLine := st.currentLine ++ (token.value ++ "\n".toList) }
  else if token.value = "\n".toList then
    match appendIndent [] st.indentLevel with
    | some line =>
      .ok { st with file := st.file ++ st.currentLine ++ "<br>".toList, currentLine := line }
    | none =>
      .error { st with file := st.file ++ st.currentLine ++ "<br>".toList, currentLine := [] }
  else
    .ok { st with currentLine :=
            st.currentLine ++ renderChars (tokenTypeToColor token.type) token.value ++
              " ".toList }

/-- The loop of `writeTokensToHtml` over the tokens. -/
def renderLoop : List Token → RenderState → Except RenderState RenderState
  | [], st => .ok st
  | token :: rest, st =>
    match renderToken st token with
    | .ok st' => renderLoop rest st'
    | .error e => .error e

/-- The local variables of `writeTokensToHtml` before the loop, after the two header
lines have been written. -/
def initRender : RenderState :=
  { file := ("<!DOCTYPE html>\n<html lang=\"en\">\n<head>\n<meta charset=\"UTF-8\">\n" ++
      "<title>Token Output</title>\n</head>\n<body>\n" ++
      "<h1>Token Output</h1>\n<pre>\n").toList,
    currentLine := [], indentLevel := 0 }

/-- The function `writeTokensToHtml` on a file that could be opened: the text written to
it, or `none` when an exception leaves the loop. -/
def writeTokensToHtml (tokens : List Token) : Option (List Char) :=
  match renderLoop tokens initRender with
  | .ok st =>
    some ((if st.currentLine.isEmpty then st.file else st.file ++ st.currentLine) ++
      "</pre>\n</body>\n</html>".toList)
  | .error _ => none

/-- The local variables at the end of the loop, or at the throw. -/
def renderOutcome : Except RenderState RenderState → RenderState
  | .ok st => st
  | .error st => st

/-- The local variables with which the loop of `writeTokensToHtml` ends or is left. -/
def renderFinal (tokens : List Token) : RenderState :=
  renderOutcome (renderLoop tokens initRender)

/-- The number of tokens of the loop that were reached: all of them, or those up to and
including the one at which an exception was thrown. -/
def tokensSeen : List Token → RenderState → Nat
  | [], _ => 0
  | token :: rest, st =>
    match renderToken st token with
    | .ok st' => tokensSeen rest st' + 1
    | .error _ => 1

/-- The number of tokens with value `{`. -/
def countOpen (tokens : List Token) : Nat :=
  (tokens.filter (fun t => decide (t.value = ['{']))).length

/-- The number of tokens with value `}`. -/
def countClose (tokens : List Token) : Nat :=
  (tokens.filter (fun t => decide (t.value = ['}']))).length

/-! ## Vocabulary of the statements -/

/-- The concatenation of the values of a token sequence, in order. -/
def concatValues : List Token → List Char
  | [] => []
  | t :: ts => t.value ++ concatValues ts

/-- A text with its whitespace characters (those of `isspace`) deleted. -/
def stripSpace (s : List Char) : List Char := s.filter (fun c => !isspace c)

/-- The characters that the scanner, outside every mode, appends to the pending lexeme:
not `#`, not a quote, not whitespace, and no punctuation except `_` and `.`. -/
def isPlain (c : Char) : Bool :=
  decide (c ≠ '#' ∧ c ≠ '"' ∧ c ≠ '\'' ∧ isspace c = false ∧
    ¬ (ispunct c = true ∧ c ≠ '_' ∧ c ≠ '.'))

/-- The property of the local variables that keeps `long long` out of the output: in a mode
the pending lexeme starts with the character that opened the mode, outside every mode it
has no whitespace; directive mode excludes the two literal modes. -/
def longLongInv (st : ScanState) : Prop :=
  (∀ t ∈ st.tokens, t.value ≠ "long long".toList) ∧
    ((st.insideString = true ∨ st.insideChar = true ∨ st.insideDirective = true) →
      ∃ q r, st.token = q :: r ∧ q ≠ 'l') ∧
    ((st.insideString = false ∧ st.insideChar = false ∧ st.insideDirective = false) →
      ∀ x ∈ st.token, isspace x = false) ∧
    (st.insideDirective = true → st.insideString = false ∧ st.insideChar = false)

/-- The property of a token in the claim on operators: an Operator has one character or
is `::`, and the value is none of the two-character operator spellings. -/
def operatorTokenOk (t : Token) : Prop :=
  (t.type = .OPERATOR → t.value.length = 1 ∨ t.value = "::".toList) ∧
    t.value ∉ ["==".toList, "!=".toList, ">=".toList, "<=".toList, "&&".toList, "||".toList]

/-- An identifier as the claims describe it: a letter or underscore followed by any number
of letters, digits or underscores. -/
def isIdentifier : List Char → Bool
  | [] => false
  | c :: rest => isIdentStart c && rest.all isIdentRest

/-! ## Lemmas on regular expression matching -/

namespace Regex

theorem rmatch_nil (r : Regex) : rmatch r [] = r.nullable := by
  cases r <;> rfl

theorem rmatch_cons (r : Regex) (c : Char) (s : List Char) :
    rmatch r (c :: s) = rmatch (r.deriv c) s := by
  cases r <;> rfl

theorem rmatch_empty (s : List Char) : rmatch empty s = false := by
  induction s with
  | nil => rfl
  | cons c s ih => rw [rmatch_cons]; exact ih

theorem rmatch_eps (s : List Char) : rmatch eps s = true ↔ s = [] := by
  cases s with
  | nil => simp [rmatch_nil, nullable]
  | cons c s => simp [rmatch_cons, deriv, rmatch_empty]

theorem rmatch_cls (p : Char → Bool) (s : List Char) :
    rmatch (cls p) s = true ↔ ∃ c, s = [c] ∧ p c = true := by
  cases s with
  | nil => simp [rmatch_nil, nullable]
  | cons c s =>
    rw [rmatch_cons]
    by_cases h : p c = true
    · have hd : (cls p).deriv c = eps := by simp [deriv, h]
      rw [hd, rmatch_eps]
      constructor
      · rintro rfl; exact ⟨c, rfl, h⟩
      · rintro ⟨x, hx, _⟩
        simp only [List.cons.injEq] at hx
        exact hx.2
    · have hd : (cls p).deriv c = empty := by simp [deriv, h]
      rw [hd, rmatch_empty]
      constructor
      · intro hf; cases hf
      · rintro ⟨x, hx, hp⟩
        simp only [List.cons.injEq] at hx
        rw [← hx.1] at hp
        exact absurd hp h

theorem rmatch_alt (a b : Regex) (s : List Char) :
    rmatch (alt a b) s = (rmatch a s || rmatch b s) := by
  induction s generalizing a b with
  | nil => simp [rmatch_nil, nullable]
  | cons c s ih => simp only [rmatch_cons, deriv]; exact ih _ _

theorem rmatch_seq (a b : Regex) (s : List Char) :
    rmatch (seq a b) s = true ↔
      ∃ u v, s = u ++ v ∧ rmatch a u = true ∧ rmatch b v = true := by
  induction s generalizing a with
  | nil =>
    constructor
    · intro h
      simp only [rmatch_nil, nullable, Bool.and_eq_true] at h
      exact ⟨[], [], rfl, by simpa [rmatch_nil] using h.1, by simpa [rmatch_nil] using h.2⟩
    · rintro ⟨u, v, huv, hu, hv⟩
      have hnil := List.append_eq_nil.mp huv.symm
      rw [hnil.1, rmatch_nil] at hu
      rw [hnil.2, rmatch_nil] at hv
      simp [rmatch_nil, nullable, hu, hv]
  | cons c s ih =>
    have key : rmatch (seq a b) (c :: s) =
        (rmatch (seq (a.deriv c) b) s || (a.nullable && rmatch (b.deriv c) s)) := by
      rw [rmatch_cons]
      by_cases hn : a.nullable = true
      · simp [deriv, hn, rmatch_alt]
      · simp [deriv, hn]
    rw [key, Bool.or_eq_true, Bool.and_eq_true, ih]
    constructor
    · rintro (⟨u, v, huv, hu, hv⟩ | ⟨hn, hb⟩)
      · exact ⟨c :: u, v, by simp [huv], by rwa [rmatch_cons], hv⟩
      · exact ⟨[], c :: s, rfl, by rwa [rmatch_nil], by rwa [rmatch_cons]⟩
    · rintro ⟨u, v, huv, hu, hv⟩
      cases u with
      | nil =>
        right
        simp only [List.nil_append] at huv
        subst huv
        exact ⟨by rwa [rmatch_nil] at hu, by rwa [rmatch_cons] at hv⟩
      | cons x u =>
        left
        simp only [List.cons_append, List.cons.injEq] at huv
        obtain ⟨rfl, rfl⟩ := huv
        exact ⟨u, v, rfl, by rwa [rmatch_cons] at hu, hv⟩

theorem rmatch_star_nil (a : Regex) : rmatch (star a) [] = true := rfl

theorem rmatch_star_cons (a : Regex) (c : Char) (s : List Char) :
    rmatch (star a) (c :: s) = true ↔
      ∃ u v, s = u ++ v ∧ rmatch a (c :: u) = true ∧ rmatch (star a) v = true := by
  rw [rmatch_cons]
  simp only [deriv, rmatch_seq, rmatch_cons]

theorem rmatch_star_cls (p : Char → Bool) (s : List Char) :
    rmatch (star (cls p)) s = true ↔ ∀ c ∈ s, p c = true := by
  induction s with
  | nil => simp [rmatch_star_nil]
  | cons c s ih =>
    rw [rmatch_star_cons]
    constructor
    · rintro ⟨u, v, huv, hu, hv⟩
      obtain ⟨x, hx, hp⟩ := (rmatch_cls p _).mp hu
      simp only [List.cons.injEq] at hx
      obtain ⟨rfl, rfl⟩ := hx
      simp only [List.nil_append] at huv
      subst huv
      intro y hy
      rcases List.mem_cons.mp hy with rfl | hy
      · exact hp
      · exact ih.mp hv y hy
    · intro h
      refine ⟨[], s, rfl, (rmatch_cls p _).mpr ⟨c, rfl, h c (List.mem_cons_self _ _)⟩, ?_⟩
      exact ih.mpr (fun y hy => h y (List.mem_cons_of_mem _ hy))

theorem rmatch_plus_cls (p : Char → Bool) (s : List Char) :
    rmatch (plus (cls p)) s = true ↔ s ≠ [] ∧ ∀ c ∈ s, p c = true := by
  unfold plus
  rw [rmatch_seq]
  constructor
  · rintro ⟨u, v, rfl, hu, hv⟩
    obtain ⟨x, rfl, hp⟩ := (rmatch_cls p _).mp hu
    refine ⟨by simp, ?_⟩
    intro y hy
    rcases List.mem_cons.mp hy with rfl | hy
    · exact hp
    · exact (rmatch_star_cls p v).mp hv y hy
  · rintro ⟨hne, h⟩
    cases s with
    | nil => exact absurd rfl hne
    | cons c s =>
      exact ⟨[c], s, rfl, (rmatch_cls p _).mpr ⟨c, rfl, h c (List.mem_cons_self _ _)⟩,
        (rmatch_star_cls p s).mpr (fun y hy => h y (List.mem_cons_of_mem _ hy))⟩

theorem first_of_rmatch (r : Regex) (c : Char) (s : List Char)
    (h : rmatch r (c :: s) = true) : r.first c = true := by
  induction r generalizing s with
  | empty => simp [rmatch_empty] at h
  | eps => simp [rmatch_cons, deriv, rmatch_empty] at h
  | cls p =>
    obtain ⟨x, hx, hp⟩ := (rmatch_cls p _).mp h
    simp only [List.cons.injEq] at hx
    rw [hx.1]; exact hp
  | seq a b iha ihb =>
    obtain ⟨u, v, huv, hu, hv⟩ := (rmatch_seq a b _).mp h
    cases u with
    | nil =>
      simp only [List.nil_append] at huv
      subst huv
      rw [rmatch_nil] at hu
      simp [first, hu, ihb s hv]
    | cons x u =>
      simp only [List.cons_append, List.cons.injEq] at huv
      obtain ⟨rfl, rfl⟩ := huv
      simp [first, iha u hu]
  | alt a b iha ihb =>
    rw [rmatch_alt, Bool.or_eq_true] at h
    rcases h with h | h
    · simp [first, iha s h]
    · simp [first, ihb s h]
  | star a iha =>
    obtain ⟨u, v, _, hu, _⟩ := (rmatch_star_cons a c s).mp h
    simpa [first] using iha u hu

end Regex

/-! ## Lemmas on characters -/

theorem char_eq_iff (c d : Char) : c = d ↔ c.toNat = d.toNat := by
  constructor
  · intro h; rw [h]
  · intro h
    rw [← Char.ofNat_toNat c, ← Char.ofNat_toNat d, h]

theorem isPlain_of_isIdentRest (c : Char) (h : isIdentRest c = true) : isPlain c = true := by
  simp only [isIdentRest, inRange, Bool.or_eq_true, decide_eq_true_eq, beq_iff_eq,
    char_eq_iff] at h
  simp only [isPlain, isspace, ispunct, ne_eq, char_eq_iff, decide_eq_true_eq,
    decide_eq_false_iff_not]
  simp at h ⊢
  omega

theorem isIdentRest_of_isIdentStart (c : Char) (h : isIdentStart c = true) :
    isIdentRest c = true := by
  simp only [isIdentStart, Bool.or_eq_true] at h
  simp only [isIdentRest, Bool.or_eq_true]
  tauto

theorem isPlain_dot : isPlain '.' = true := by decide

theorem isPlain_of_isDigitC (c : Char) (h : isDigitC c = true) : isPlain c = true :=
  isPlain_of_isIdentRest c (by simp [isIdentRest, show inRange '0' '9' c = true from h])

/-! ## Lemmas on the scanner -/

theorem recognizeToken_value (s : List Char) : (recognizeToken s).value = s := by
  unfold recognizeToken
  repeat' split
  all_goals rfl

theorem tokenizeLoop_nil (fuel : Nat) (st : ScanState) : tokenizeLoop fuel [] st = st := by
  cases fuel <;> rfl

theorem flushPending_nil (tokens : List Token) : flushPending tokens [] = tokens := rfl

theorem flushPending_cons (tokens : List Token) (c : Char) (s : List Char) :
    flushPending tokens (c :: s) = tokens ++ [recognizeToken (c :: s)] := rfl

/-- The step bound never stops the loop: every iteration consumes at least one character,
so any two bounds that are at least the length of the unread input give the same state. -/
theorem tokenizeLoop_fuel (f1 : Nat) :
    ∀ (f2 : Nat) (s : List Char) (st : ScanState), s.length ≤ f1 → s.length ≤ f2 →
      tokenizeLoop f1 s st = tokenizeLoop f2 s st := by
  induction f1 with
  | zero =>
    intro f2 s st h1 _
    have : s = [] := List.length_eq_zero.mp (Nat.le_zero.mp h1)
    subst this
    rw [tokenizeLoop_nil, tokenizeLoop_nil]
  | succ f1 ih =>
    intro f2 s st h1 h2
    cases s with
    | nil => rw [tokenizeLoop_nil, tokenizeLoop_nil]
    | cons current rest =>
      cases f2 with
      | zero => simp at h2
      | succ f2 =>
        simp only [List.length_cons, Nat.add_le_add_iff_right] at h1 h2
        have hd1 : (rest.drop 1).length ≤ f1 := by simp only [List.length_drop]; omega
        have hd2 : (rest.drop 1).length ≤ f2 := by simp only [List.length_drop]; omega
        have hc : (((current :: rest).dropWhile (fun c => decide (c ≠ '\n'))).drop 1).length
            ≤ rest.length := by
          have := (List.dropWhile_sublist (fun c => decide (c ≠ '\n'))
            (l := current :: rest)).length_le
          simp only [List.length_drop, List.length_cons] at this ⊢
          omega
        have e1 : ∀ st', tokenizeLoop f1 rest st' = tokenizeLoop f2 rest st' :=
          fun st' => ih f2 rest st' h1 h2
        have e2 : ∀ st', tokenizeLoop f1 (rest.drop 1) st' = tokenizeLoop f2 (rest.drop 1) st' :=
          fun st' => ih f2 _ st' hd1 hd2
        have e3 : ∀ st',
            tokenizeLoop f1 (((current :: rest).dropWhile (fun c => decide (c ≠ '\n'))).drop 1)
                st' =
              tokenizeLoop f2
                (((current :: rest).dropWhile (fun c => decide (c ≠ '\n'))).drop 1) st' :=
          fun st' => ih f2 _ st' (le_trans hc h1) (le_trans hc h2)
        conv_lhs => rw [tokenizeLoop]
        conv_rhs => rw [tokenizeLoop]
        simp only [e1, e2, e3]

/-- The result of `tokenize` does not depend on the step bound, once it is at least the
length of the input. -/
theorem tokenize_fuel (code : List Char) (fuel : Nat) (h : code.length ≤ fuel) :
    tokenize code =
      flushPending (tokenizeLoop fuel code initState).tokens
        (tokenizeLoop fuel code initState).token := by
  unfold tokenize
  rw [tokenizeLoop_fuel code.length fuel code initState (Nat.le_refl _) h]

/-- Outside every mode, a run of plain characters is appended to the pending lexeme. -/
theorem tokenizeLoop_plain (s s2 : List Char) (fuel : Nat) (st : ScanState)
    (hS : st.insideString = false) (hC : st.insideChar = false)
    (hD : st.insideDirective = false) (hs : ∀ c ∈ s, isPlain c = true) :
    tokenizeLoop (fuel + s.length) (s ++ s2) st =
      tokenizeLoop fuel s2 { st with token := st.token ++ s } := by
  induction s generalizing st with
  | nil => simp
  | cons c s ih =>
    have hc := hs c (List.mem_cons_self _ _)
    simp only [isPlain, decide_eq_true_eq] at hc
    obtain ⟨h1, h2, h3, h4, h5⟩ := hc
    have h6 : c ≠ '/' := by
      intro h; subst h; exact h5 (by decide)
    have h7 : c ≠ ':' := by
      intro h; subst h; exact h5 (by decide)
    have hstep : tokenizeLoop (fuel + (c :: s).length) ((c :: s) ++ s2) st =
        tokenizeLoop (fuel + s.length) (s ++ s2) { st with token := st.token ++ [c] } := by
      rw [List.length_cons, ← Nat.add_assoc, List.cons_append, tokenizeLoop]
      simp [h1, h2, h3, h4, h5, h6, h7, hS, hC, hD]
    rw [hstep, ih { st with token := st.token ++ [c] } hS hC hD
      (fun x hx => hs x (List.mem_cons_of_mem _ hx))]
    simp

/-- A lexeme of plain characters alone is scanned as one token. -/
theorem tokenize_plain (s : List Char) (hne : s ≠ []) (hs : ∀ c ∈ s, isPlain c = true) :
    tokenize s = [recognizeToken s] := by
  have h := tokenizeLoop_plain s [] 0 initState rfl rfl rfl hs
  simp only [Nat.zero_add, List.append_nil, tokenizeLoop_nil] at h
  unfold tokenize
  simp only [h]
  cases s with
  | nil => exact absurd rfl hne
  | cons c s => rfl

/-! ## Order preservation -/

theorem concatValues_append (a b : List Token) :
    concatValues (a ++ b) = concatValues a ++ concatValues b := by
  induction a with
  | nil => rfl
  | cons t a ih => simp [concatValues, ih]

theorem concatValues_flushPending (tokens : List Token) (token : List Char) :
    concatValues (flushPending tokens token) = concatValues tokens ++ token := by
  cases token with
  | nil => simp [flushPending]
  | cons c s =>
    simp [flushPending, concatValues_append, concatValues, recognizeToken_value]

theorem stripSpace_append (a b : List Char) :
    stripSpace (a ++ b) = stripSpace a ++ stripSpace b := by
  simp [stripSpace]

theorem stripSpace_cons_space (c : Char) (s : List Char) (h : isspace c = true) :
    stripSpace (c :: s) = stripSpace s := by
  simp [stripSpace, h]

theorem stripSpace_drop_lineFeed (s : List Char) :
    stripSpace ((s.dropWhile (fun c => decide (c ≠ '\n'))).drop 1) =
      stripSpace (s.dropWhile (fun c => decide (c ≠ '\n'))) := by
  induction s with
  | nil => rfl
  | cons c s ih =>
    by_cases h : c = '\n'
    · subst h
      simp [List.dropWhile, stripSpace, isspace]
    · simp only [List.dropWhile, ne_eq, h, not_false_eq_true, decide_True]
      exact ih

theorem length_drop_dropWhile_le (p : Char → Bool) (s : List Char) :
    ((s.dropWhile p).drop 1).length ≤ s.length := by
  have h := (List.dropWhile_sublist p (l := s)).length_le
  simp only [List.length_drop]
  omega

/-- Loop invariant of `tokenize`: the emitted values, the pending lexeme and the unread
input, taken together, keep the same non-whitespace characters in the same order. -/
theorem tokenizeLoop_stripSpace (fuel : Nat) :
    ∀ (s : List Char) (st : ScanState), s.length ≤ fuel →
      stripSpace (concatValues (tokenizeLoop fuel s st).tokens ++
          (tokenizeLoop fuel s st).token) =
        stripSpace (concatValues st.tokens ++ st.token ++ s) := by
  induction fuel with
  | zero =>
    intro s st hlen
    have : s = [] := List.length_eq_zero.mp (Nat.le_zero.mp hlen)
    subst this
    simp [tokenizeLoop]
  | succ fuel ih =>
    intro s st hlen
    cases s with
    | nil => simp [tokenizeLoop]
    | cons current rest =>
      have hrest : rest.length ≤ fuel := by
        simp only [List.length_cons] at hlen; omega
      have hdrop : (rest.drop 1).length ≤ fuel := by
        simp only [List.length_drop]; omega
      rw [tokenizeLoop]
      split_ifs with h1 h2 h3 h4 h5 h6 h7 h8 h9 h10
      · rw [ih _ _ hrest]
        simp [concatValues_flushPending, List.append_assoc]
      · rw [ih _ _ hrest]
        subst h3
        simp [concatValues_append, concatValues, recognizeToken_value, stripSpace_append,
          stripSpace_cons_space _ _ (show isspace '\n' = true by decide)]
      · rw [ih _ _ hrest]
        simp [List.append_assoc]
      · rw [ih _ _ hrest]
        simp [concatValues_append, concatValues, recognizeToken_value, List.append_assoc]
      · rw [ih _ _ hrest]
        simp [concatValues_flushPending, List.append_assoc]
      · rw [ih _ _ hrest]
        simp [List.append_assoc]
      · obtain ⟨hc, _⟩ := h7
        subst hc
        have hlen2 : (((('/' :: rest).dropWhile (fun c => decide (c ≠ '\n'))).drop 1)).length
            ≤ fuel := by
          have := length_drop_dropWhile_le (fun c => decide (c ≠ '\n')) rest
          simp only [List.dropWhile]
          simpa using le_trans this hrest
        simp only []
        rw [ih _ _ hlen2]
        have hsplit := List.takeWhile_append_dropWhile (fun c => decide (c ≠ '\n')) ('/' :: rest)
        have htake : ('/' :: rest).takeWhile (fun c => decide (c ≠ '\n')) =
            '/' :: rest.takeWhile (fun c => decide (c ≠ '\n')) := by
          simp [List.takeWhile]
        rw [htake] at hsplit ⊢
        simp only [List.cons_append] at hsplit
        simp only [List.cons_append, List.nil_append, List.length_cons, List.drop_succ_cons,
          List.drop_zero, List.append_nil]
        rw [if_pos (by omega), stripSpace_append, stripSpace_drop_lineFeed, ← stripSpace_append,
          concatValues_append, concatValues_flushPending]
        simp only [concatValues, List.append_nil, List.append_assoc, List.cons_append, hsplit]
      · obtain ⟨hc, hh⟩ := h8
        subst hc
        cases rest with
        | nil => simp at hh
        | cons d rest' =>
          simp only [List.head?_cons, Option.some.injEq] at hh
          subst hh
          rw [ih _ _ hdrop]
          simp [concatValues_append, concatValues_flushPending, concatValues,
            recognizeToken_value, List.append_assoc]
      · rw [ih _ _ hrest]
        simp [concatValues_flushPending, stripSpace_append, stripSpace_cons_space _ _ h9]
      · rw [ih _ _ hrest]
        simp [concatValues_append, concatValues_flushPending, concatValues,
          recognizeToken_value, List.append_assoc]
      · rw [ih _ _ hrest]
        simp [List.append_assoc]

/-! ## Runs of the scanner inside a mode -/

/-- In directive mode every character other than `#` and the line feed is appended. -/
theorem tokenizeLoop_directive (s s2 : List Char) (fuel : Nat) (st : ScanState)
    (hD : st.insideDirective = true) (hs : ∀ c ∈ s, c ≠ '#' ∧ c ≠ '\n') :
    tokenizeLoop (fuel + s.length) (s ++ s2) st =
      tokenizeLoop fuel s2 { st with token := st.token ++ s } := by
  induction s generalizing st with
  | nil => simp
  | cons c s ih =>
    obtain ⟨h1, h2⟩ := hs c (List.mem_cons_self _ _)
    have hstep : tokenizeLoop (fuel + (c :: s).length) ((c :: s) ++ s2) st =
        tokenizeLoop (fuel + s.length) (s ++ s2) { st with token := st.token ++ [c] } := by
      rw [List.length_cons, ← Nat.add_assoc, List.cons_append, tokenizeLoop]
      simp [h1, h2, hD]
    rw [hstep, ih { st with token := st.token ++ [c] } hD
      (fun x hx => hs x (List.mem_cons_of_mem _ hx))]
    simp

/-- Inside a string literal every character other than `#` and the two quotes is
appended. -/
theorem tokenizeLoop_string (s s2 : List Char) (fuel : Nat) (st : ScanState)
    (hS : st.insideString = true) (hD : st.insideDirective = false)
    (hs : ∀ c ∈ s, c ≠ '#' ∧ c ≠ '"' ∧ c ≠ '\'') :
    tokenizeLoop (fuel + s.length) (s ++ s2) st =
      tokenizeLoop fuel s2 { st with token := st.token ++ s } := by
  induction s generalizing st with
  | nil => simp
  | cons c s ih =>
    obtain ⟨h1, h2, h3⟩ := hs c (List.mem_cons_self _ _)
    have hstep : tokenizeLoop (fuel + (c :: s).length) ((c :: s) ++ s2) st =
        tokenizeLoop (fuel + s.length) (s ++ s2) { st with token := st.token ++ [c] } := by
      rw [List.length_cons, ← Nat.add_assoc, List.cons_append, tokenizeLoop]
      simp [h1, h2, h3, hS, hD]
    rw [hstep, ih { st with token := st.token ++ [c] } hS hD
      (fun x hx => hs x (List.mem_cons_of_mem _ hx))]
    simp

/-- A line `#b` with no further `#` in it, ended by a line feed, is one lexeme. -/
theorem tokenize_directive_line (b : List Char) (hb : ∀ c ∈ b, c ≠ '#' ∧ c ≠ '\n') :
    tokenize ('#' :: b ++ ['\n']) = [recognizeToken ('#' :: b)] := by
  unfold tokenize
  have h1 : tokenizeLoop ('#' :: b ++ ['\n']).length ('#' :: b ++ ['\n']) initState =
      tokenizeLoop (1 + b.length) (b ++ ['\n'])
        { initState with token := ['#'], insideDirective := true } := by
    have hl : ('#' :: b ++ ['\n']).length = (1 + b.length) + 1 := by
      simp only [List.cons_append, List.length_cons, List.length_append, List.length_nil]
      omega
    rw [hl, List.cons_append, tokenizeLoop]
    simp [initState, flushPending]
  rw [h1, tokenizeLoop_directive b ['\n'] 1 _ rfl hb]
  simp [tokenizeLoop, initState, flushPending]

/-- A text `"c"` whose content has no `#` and no quote is one lexeme. -/
theorem tokenize_string_literal (c : List Char) (hc : ∀ x ∈ c, x ≠ '#' ∧ x ≠ '"' ∧ x ≠ '\'') :
    tokenize ('"' :: c ++ ['"']) = [recognizeToken ('"' :: c ++ ['"'])] := by
  unfold tokenize
  have h1 : tokenizeLoop ('"' :: c ++ ['"']).length ('"' :: c ++ ['"']) initState =
      tokenizeLoop (1 + c.length) (c ++ ['"'])
        { initState with token := ['"'], insideString := true } := by
    have hl : ('"' :: c ++ ['"']).length = (1 + c.length) + 1 := by
      simp only [List.cons_append, List.length_cons, List.length_append, List.length_nil]
      omega
    rw [hl, List.cons_append, tokenizeLoop]
    simp [initState, flushPending]
  rw [h1, tokenizeLoop_string c ['"'] 1 _ rfl rfl hc]
  simp [tokenizeLoop, initState, flushPending]

/-- A line comment alone on its line: the emitted value is the whole line, slashes
included, whatever follows the slashes. -/
theorem tokenize_comment_line (c : List Char) (hc : ∀ x ∈ c, x ≠ '\n') :
    tokenize (['/', '/'] ++ c ++ ['\n']) = [⟨['/', '/'] ++ c, .COMMENT⟩] := by
  have htake : (c ++ ['\n']).takeWhile (fun x => !decide (x = '\n')) = c := by
    rw [List.takeWhile_append_of_pos (by simpa using hc)]
    simp
  have hdrop : (c ++ ['\n']).dropWhile (fun x => !decide (x = '\n')) = ['\n'] := by
    rw [List.dropWhile_append_of_pos (by simpa using hc)]
    simp
  unfold tokenize
  have hl : (['/', '/'] ++ c ++ ['\n']).length = (c.length + 2) + 1 := by simp
  have hform : ['/', '/'] ++ c ++ ['\n'] = '/' :: '/' :: (c ++ ['\n']) := by simp
  rw [hl, hform, tokenizeLoop]
  simp [initState, flushPending, List.takeWhile, List.dropWhile, htake, hdrop,
    tokenizeLoop_nil]

/-! ## Lemmas on the classifier -/

theorem Regex.not_rmatch_of_first (r : Regex) (c : Char) (s : List Char)
    (h : r.first c = false) : rmatch r (c :: s) = false := by
  cases hm : rmatch r (c :: s) with
  | false => rfl
  | true => rw [Regex.first_of_rmatch r c s hm] at h; cases h

theorem keywords_head :
    ∀ k ∈ keywords, k.head?.map (inRange 'a' 'z') = some true := by
  decide

theorem not_mem_keywords_of_head (c : Char) (s : List Char) (h : inRange 'a' 'z' c = false) :
    c :: s ∉ keywords := by
  intro hk
  have := keywords_head _ hk
  simp [h] at this

theorem keywords_no_dot : ∀ k ∈ keywords, '.' ∉ k := by
  decide

theorem first_directiveRegex (c : Char) : directiveRegex.first c = (c == '#') := by
  simp [directiveRegex, first, chr, nullable]

theorem first_intRegex (c : Char) : intRegex.first c = isDigitC c := by
  simp [intRegex, first, plus, nullable]

theorem first_floatRegex (c : Char) : floatRegex.first c = (isDigitC c || c == '.') := by
  simp [floatRegex, first, plus, chr, nullable]
  exact Or.inl

theorem first_stringRegex (c : Char) : stringRegex.first c = (c == '"') := by
  simp [stringRegex, first, chr, nullable]

theorem first_charRegex (c : Char) : charRegex.first c = (c == '\'') := by
  simp [charRegex, first, chr, nullable]

theorem rmatch_chr (k : Char) : rmatch (chr k) [k] = true := by
  simp [rmatch_cons, rmatch_nil, chr, Regex.deriv, nullable]

theorem rmatch_seq_intro (a b : Regex) (u v : List Char)
    (hu : rmatch a u = true) (hv : rmatch b v = true) : rmatch (seq a b) (u ++ v) = true :=
  (Regex.rmatch_seq a b _).mpr ⟨u, v, rfl, hu, hv⟩

theorem identStart_not_special (c : Char) (h : isIdentStart c = true) :
    (c == '#') = false ∧ isDigitC c = false ∧ (c == '.') = false ∧ (c == '"') = false ∧
      (c == '\'') = false := by
  simp only [isIdentStart, inRange, Bool.or_eq_true, decide_eq_true_eq, beq_iff_eq,
    char_eq_iff] at h
  simp only [isDigitC, inRange, beq_eq_false_iff_ne, ne_eq, char_eq_iff,
    decide_eq_false_iff_not]
  simp at h ⊢
  omega

theorem digit_not_special (c : Char) (h : isDigitC c = true) :
    inRange 'a' 'z' c = false ∧ (c == '#') = false := by
  simp only [isDigitC, inRange, decide_eq_true_eq] at h
  simp only [inRange, beq_eq_false_iff_ne, ne_eq, char_eq_iff, decide_eq_false_iff_not]
  simp at h ⊢
  omega

theorem rmatch_identifierPart (s : List Char) (h : isIdentifier s = true) :
    rmatch identifierPart s = true := by
  cases s with
  | nil => simp [isIdentifier] at h
  | cons c r =>
    simp only [isIdentifier, Bool.and_eq_true, List.all_eq_true] at h
    exact rmatch_seq_intro _ _ [c] r ((Regex.rmatch_cls _ _).mpr ⟨c, rfl, h.1⟩)
      ((Regex.rmatch_star_cls _ _).mpr h.2)

theorem isPlain_of_isIdentifier (s : List Char) (h : isIdentifier s = true) :
    ∀ c ∈ s, isPlain c = true := by
  cases s with
  | nil => simp
  | cons c r =>
    simp only [isIdentifier, Bool.and_eq_true, List.all_eq_true] at h
    intro x hx
    rcases List.mem_cons.mp hx with rfl | hx
    · exact isPlain_of_isIdentRest _ (isIdentRest_of_isIdentStart _ h.1)
    · exact isPlain_of_isIdentRest _ (h.2 x hx)

theorem directiveNames_chars :
    ∀ n ∈ ["include".toList, "define".toList, "ifdef".toList, "ifndef".toList,
        "endif".toList, "pragma".toList], ∀ c ∈ n, c ≠ '#' ∧ c ≠ '\n' := by
  decide

theorem directiveNames_rmatch :
    ∀ n ∈ ["include".toList, "define".toList, "ifdef".toList, "ifndef".toList,
        "endif".toList, "pragma".toList],
      rmatch (alts [lit "include".toList, lit "define".toList, lit "ifdef".toList,
        lit "ifndef".toList, lit "endif".toList, lit "pragma".toList]) n = true := by
  decide

/-! ## Claims -/

/-- C1 (as stated, refuted): scanning `std::string` does not give the three tokens
Identifier `std`, Operator `::`, Keyword `string`. -/
theorem tokenize_std_string_not_keyword :
    tokenize "std::string".toList ≠
      [⟨"std".toList, .IDENTIFIER⟩, ⟨"::".toList, .OPERATOR⟩, ⟨"string".toList, .KEYWORD⟩] := by
  decide

/-- C1 (amended): scanning `std::string` gives exactly three tokens, in this order:
Identifier `std`, Operator `::`, and Identifier `string`; `string` is not in the
keyword set. -/
theorem tokenize_std_string :
    tokenize "std::string".toList =
      [⟨"std".toList, .IDENTIFIER⟩, ⟨"::".toList, .OPERATOR⟩,
       ⟨"string".toList, .IDENTIFIER⟩] ∧
    "string".toList ∉ keywords := by
  decide

/-- C2 (as stated, refuted): scanning `3.14e-2` does not give the single token
`3.14e-2` of category Float. -/
theorem tokenize_float_not_one_token :
    tokenize "3.14e-2".toList ≠ [⟨"3.14e-2".toList, .FLOAT⟩] := by
  decide

/-- C2 (amended): scanning `3.14e-2` gives exactly three tokens, in this order: Unknown
`3.14e`, Operator `-` and Integer `2`, because the scanner makes the sign, a punctuation
character, a lexeme of its own; `recognizeToken` applied to the single lexeme `3.14e-2`
returns Float. -/
theorem tokenize_float_signed_exponent :
    tokenize "3.14e-2".toList =
      [⟨"3.14e".toList, .UNKNOWN⟩, ⟨"-".toList, .OPERATOR⟩, ⟨"2".toList, .INTEGER⟩] ∧
    recognizeToken "3.14e-2".toList = ⟨"3.14e-2".toList, .FLOAT⟩ := by
  decide

/-- C3 (the code at the failing inputs): scanning `//abc` and a line feed gives one
Comment token whose value `//abc` still has the two slashes, and scanning `//` and a line
feed gives one Comment token `//` instead of no token. -/
theorem tokenize_comment_keeps_slashes :
    tokenize "//abc\n".toList = [⟨"//abc".toList, .COMMENT⟩] ∧
    tokenize "//\n".toList = [⟨"//".toList, .COMMENT⟩] := by
  decide

/-- C4: order preservation. For every input, the concatenation of the values of the
tokens returned by `tokenize`, with whitespace deleted, is the input with whitespace
deleted. -/
theorem tokenize_preserves_order (code : List Char) :
    stripSpace (concatValues (tokenize code)) = stripSpace code := by
  have h := tokenizeLoop_stripSpace code.length code initState (Nat.le_refl _)
  unfold tokenize
  simp only [concatValues_flushPending]
  rw [h]
  simp [initState, concatValues]

/-- C5: for every directive name `n` among include, define, ifdef, ifndef, endif, pragma
and every non-empty target `t` without space, tab, line feed or `#`, scanning `#`, `n`, one
space, `t` and a line feed gives exactly one token, of category Directive, whose value is
the line without the line feed. -/
theorem tokenize_directive (n t : List Char)
    (hn : n ∈ ["include".toList, "define".toList, "ifdef".toList, "ifndef".toList,
      "endif".toList, "pragma".toList])
    (ht : t ≠ [])
    (hchars : ∀ c ∈ t, c ≠ ' ' ∧ c ≠ '\t' ∧ c ≠ '\n' ∧ c ≠ '#') :
    tokenize (['#'] ++ n ++ [' '] ++ t ++ ['\n']) =
      [⟨['#'] ++ n ++ [' '] ++ t, .DIRECTIVE⟩] := by
  have hb : ∀ c ∈ n ++ ' ' :: t, c ≠ '#' ∧ c ≠ '\n' := by
    intro c hc
    rcases List.mem_append.mp hc with hc | hc
    · exact directiveNames_chars n hn c hc
    · rcases List.mem_cons.mp hc with rfl | hc
      · decide
      · exact ⟨(hchars c hc).2.2.2, (hchars c hc).2.2.1⟩
  have hline := tokenize_directive_line (n ++ ' ' :: t) hb
  have hform : ['#'] ++ n ++ [' '] ++ t ++ ['\n'] = '#' :: (n ++ ' ' :: t) ++ ['\n'] := by simp
  have hval : ['#'] ++ n ++ [' '] ++ t = '#' :: (n ++ ' ' :: t) := by simp
  rw [hform, hval, hline]
  have hmatch : directiveRegex.rmatch ('#' :: (n ++ ' ' :: t)) = true := by
    have hsplit : '#' :: (n ++ ' ' :: t) = ['#'] ++ (n ++ ([' '] ++ (t ++ []))) := by simp
    rw [hsplit]
    unfold directiveRegex
    refine rmatch_seq_intro _ _ _ _ (rmatch_chr '#') ?_
    refine rmatch_seq_intro _ _ _ _ (directiveNames_rmatch n hn) ?_
    refine rmatch_seq_intro _ _ _ _ (by decide) ?_
    refine rmatch_seq_intro _ _ _ _ ?_ rfl
    refine (Regex.rmatch_plus_cls _ _).mpr ⟨ht, fun c hc => ?_⟩
    simp [isNotBlank, (hchars c hc).1, (hchars c hc).2.1]
  unfold recognizeToken
  rw [if_neg (not_mem_keywords_of_head '#' _ (by decide)), if_pos hmatch]

/-- C5 (witness): `#include <a.h>` followed by a line feed is one Directive token. -/
theorem tokenize_directive_witness :
    tokenize (['#'] ++ "include".toList ++ [' '] ++ "<a.h>".toList ++ ['\n']) =
      [⟨['#'] ++ "include".toList ++ [' '] ++ "<a.h>".toList, .DIRECTIVE⟩] :=
  tokenize_directive "include".toList "<a.h>".toList (by decide) (by decide) (by decide)

/-- C6: for every non-empty string `d` of decimal digits, `tokenize d` is exactly one
token with value `d` and category Integer; `d` also matches the float pattern, but the
integer rule is tried first, so `recognizeToken d` is Integer and not Float. -/
theorem tokenize_digits (d : List Char) (hne : d ≠ [])
    (hd : ∀ c ∈ d, isDigitC c = true) :
    tokenize d = [⟨d, .INTEGER⟩] ∧ recognizeToken d = ⟨d, .INTEGER⟩ ∧
      (recognizeToken d).type ≠ .FLOAT ∧ floatRegex.rmatch d = true := by
  have hint : intRegex.rmatch d = true := (Regex.rmatch_plus_cls _ _).mpr ⟨hne, hd⟩
  have hrec : recognizeToken d = ⟨d, .INTEGER⟩ := by
    cases d with
    | nil => exact absurd rfl hne
    | cons c r =>
      have hc := digit_not_special c (hd c (List.mem_cons_self _ _))
      unfold recognizeToken
      rw [if_neg (not_mem_keywords_of_head c r hc.1),
        if_neg (by
          rw [Regex.not_rmatch_of_first _ c r (by rw [first_directiveRegex]; exact hc.2)]
          simp),
        if_pos hint]
  refine ⟨?_, hrec, by rw [hrec]; simp, ?_⟩
  · rw [tokenize_plain d hne (fun c hc => isPlain_of_isDigitC c (hd c hc)), hrec]
  · unfold floatRegex
    rw [Regex.rmatch_alt, Bool.or_eq_true]
    right
    have := rmatch_seq_intro (plus (cls isDigitC)) exponentPart d [] hint rfl
    simpa using this

/-- C6 (witness): `123` is one Integer token. -/
theorem tokenize_digits_witness :
    tokenize "123".toList = [⟨"123".toList, .INTEGER⟩] ∧
      recognizeToken "123".toList = ⟨"123".toList, .INTEGER⟩ ∧
      (recognizeToken "123".toList).type ≠ .FLOAT ∧ floatRegex.rmatch "123".toList = true :=
  tokenize_digits "123".toList (by decide) (by decide)

/-- C7: for all identifiers `a` and `b`, scanning `a`, a dot and `b` gives exactly one
token, whose value is the whole text and whose category is MemberAccess. -/
theorem tokenize_member_access (a b : List Char)
    (ha : isIdentifier a = true) (hb : isIdentifier b = true) :
    tokenize (a ++ ['.'] ++ b) = [⟨a ++ ['.'] ++ b, .MEMBER_ACCESS⟩] := by
  have hplain : ∀ c ∈ a ++ ['.'] ++ b, isPlain c = true := by
    intro c hc
    rcases List.mem_append.mp hc with hc | hc
    · rcases List.mem_append.mp hc with hc | hc
      · exact isPlain_of_isIdentifier a ha c hc
      · rw [List.mem_singleton.mp hc]; exact isPlain_dot
    · exact isPlain_of_isIdentifier b hb c hc
  have hne : a ++ ['.'] ++ b ≠ [] := by simp
  rw [tokenize_plain _ hne hplain]
  have hkey : a ++ ['.'] ++ b ∉ keywords := fun hk =>
    keywords_no_dot _ hk (by simp)
  have hmem : memberAccessRegex.rmatch (a ++ ['.'] ++ b) = true := by
    rw [List.append_assoc]
    exact rmatch_seq_intro _ _ a (['.'] ++ b) (rmatch_identifierPart a ha)
      (rmatch_seq_intro _ _ ['.'] b (rmatch_chr '.') (rmatch_identifierPart b hb))
  cases a with
  | nil => simp [isIdentifier] at ha
  | cons c r =>
    simp only [isIdentifier, Bool.and_eq_true] at ha
    obtain ⟨h1, h2, h3, h4, h5⟩ := identStart_not_special c ha.1
    simp only [List.cons_append] at hkey hmem ⊢
    unfold recognizeToken
    rw [if_neg hkey,
      if_neg (by
        rw [Regex.not_rmatch_of_first _ c _ (by rw [first_directiveRegex]; exact h1)]; simp),
      if_neg (by
        rw [Regex.not_rmatch_of_first _ c _ (by rw [first_intRegex]; exact h2)]; simp),
      if_neg (by
        rw [Regex.not_rmatch_of_first _ c _ (by rw [first_floatRegex, h2, h3]; rfl)]; simp),
      if_neg (by
        rw [Regex.not_rmatch_of_first _ c _ (by rw [first_stringRegex]; exact h4)]; simp),
      if_neg (by
        rw [Regex.not_rmatch_of_first _ c _ (by rw [first_charRegex]; exact h5)]; simp),
      if_pos hmem]

/-- C7 (witness): `x.y` is one MemberAccess token. -/
theorem tokenize_member_access_witness :
    tokenize ("x".toList ++ ['.'] ++ "y".toList) =
      [⟨"x".toList ++ ['.'] ++ "y".toList, .MEMBER_ACCESS⟩] :=
  tokenize_member_access "x".toList "y".toList (by decide) (by decide)

/-- C8: keyword precedence. `recognizeToken s` has category Keyword exactly when `s` is
an entry of the keyword set (int, float, double, char, if, else, for, while, return, void,
using, namespace, const, long long), although every entry but `long long` also matches the
identifier pattern. -/
theorem recognizeToken_keyword (s : List Char) :
    ((recognizeToken s).type = .KEYWORD ↔
      s ∈ ["int".toList, "float".toList, "double".toList, "char".toList, "if".toList,
        "else".toList, "for".toList, "while".toList, "return".toList, "void".toList,
        "using".toList, "namespace".toList, "const".toList, "long long".toList]) ∧
    (s ∈ keywords → recognizeToken s = ⟨s, .KEYWORD⟩) ∧
    (s ∈ keywords → s ≠ "long long".toList → identifierRegex.rmatch s = true) := by
  refine ⟨?_, ?_, ?_⟩
  · change (recognizeToken s).type = .KEYWORD ↔ s ∈ keywords
    constructor
    · intro h
      by_contra hk
      unfold recognizeToken at h
      rw [if_neg hk] at h
      split_ifs at h
    · intro hk
      unfold recognizeToken
      rw [if_pos hk]
  · intro hk
    unfold recognizeToken
    rw [if_pos hk]
  · revert s
    decide

/-- C9 (as stated, refuted): the three-character lexeme made of a double quote, a line
feed and a double quote begins and ends with a double quote, and `recognizeToken` gives
it the category Unknown, not String. -/
theorem recognizeToken_string_lineFeed :
    2 ≤ ['"', '\n', '"'].length ∧ ['"', '\n', '"'].head? = some '"' ∧
      ['"', '\n', '"'].getLast? = some '"' ∧
      recognizeToken ['"', '\n', '"'] = ⟨['"', '\n', '"'], .UNKNOWN⟩ := by
  decide

/-- C9 (amended): for every lexeme that begins with a double quote and ends with a double
quote (length at least 2), `recognizeToken` returns category String when the characters
between the two quotes, of which there may be none, include no line feed and no carriage
return. -/
theorem recognizeToken_string (mid : List Char)
    (hmid : ∀ c ∈ mid, c ≠ '\n' ∧ c ≠ '\r') :
    recognizeToken (['"'] ++ mid ++ ['"']) = ⟨['"'] ++ mid ++ ['"'], .STRING⟩ := by
  have hstr : stringRegex.rmatch ('"' :: (mid ++ ['"'])) = true := by
    refine rmatch_seq_intro _ _ ['"'] (mid ++ ['"']) (rmatch_chr '"') ?_
    refine rmatch_seq_intro _ _ mid ['"'] ?_ (rmatch_chr '"')
    refine (Regex.rmatch_star_cls _ _).mpr (fun c hc => ?_)
    simp [isDot, (hmid c hc).1, (hmid c hc).2]
  have hform : ['"'] ++ mid ++ ['"'] = '"' :: (mid ++ ['"']) := by simp
  rw [hform]
  unfold recognizeToken
  rw [if_neg (not_mem_keywords_of_head '"' _ (by decide)),
    if_neg (by
      rw [Regex.not_rmatch_of_first _ '"' _ (by rw [first_directiveRegex]; decide)]; simp),
    if_neg (by
      rw [Regex.not_rmatch_of_first _ '"' _ (by rw [first_intRegex]; decide)]; simp),
    if_neg (by
      rw [Regex.not_rmatch_of_first _ '"' _ (by rw [first_floatRegex]; decide)]; simp),
    if_pos hstr]

/-- C9 (witness): the literal `"a, b = c;"`, with letters, spaces and punctuation between
the quotes and no line terminator, is a String. -/
theorem recognizeToken_string_witness :
    recognizeToken (['"'] ++ "a, b = c;".toList ++ ['"']) =
      ⟨['"'] ++ "a, b = c;".toList ++ ['"'], .STRING⟩ :=
  recognizeToken_string "a, b = c;".toList (by decide)

/-- C10 (as stated, refuted): the text `a#b` has no double quote, and scanning it between
double quotes gives two tokens, the second one starting at the `#`. -/
theorem tokenize_string_with_hash :
    '"' ∉ "a#b".toList ∧
      tokenize (['"'] ++ "a#b".toList ++ ['"']) =
        [⟨"\"a".toList, .UNKNOWN⟩, ⟨"#b\"".toList, .UNKNOWN⟩] := by
  decide

/-- C10 (amended): for every text `c` that contains no double quote, no single quote and
no `#`, scanning `c` between double quotes gives exactly one token, whose value is the
entire input with both delimiters. -/
theorem tokenize_string (c : List Char)
    (hc : ∀ x ∈ c, x ≠ '"' ∧ x ≠ '\'' ∧ x ≠ '#') :
    ∃ t, tokenize (['"'] ++ c ++ ['"']) = [t] ∧ t.value = ['"'] ++ c ++ ['"'] := by
  refine ⟨recognizeToken (['"'] ++ c ++ ['"']), ?_, recognizeToken_value _⟩
  have h := tokenize_string_literal c (fun x hx => ⟨(hc x hx).2.2, (hc x hx).1, (hc x hx).2.1⟩)
  simpa using h

/-- C10 (witness): `"hi"` is one token whose value is the whole input. -/
theorem tokenize_string_witness :
    ∃ t, tokenize (['"'] ++ "hi".toList ++ ['"']) = [t] ∧
      t.value = ['"'] ++ "hi".toList ++ ['"'] :=
  tokenize_string "hi".toList (by decide)

/-! ## The loop as an iteration of `scanStep` -/

theorem comment_length_gt (current : Char) (rest : List Char) (h : current = '/') :
    ([current, '/'] ++ (current :: rest).takeWhile (fun c => decide (c ≠ '\n'))).length > 2 := by
  subst h
  simp [List.takeWhile]

theorem comment_dropWhile (current : Char) (rest : List Char) (h : current = '/') :
    (current :: rest).dropWhile (fun c => decide (c ≠ '\n')) =
      rest.dropWhile (fun c => decide (c ≠ '\n')) := by
  subst h
  simp [List.dropWhile]

theorem tokenizeLoop_succ (fuel : Nat) (current : Char) (rest : List Char) (st : ScanState) :
    tokenizeLoop (fuel + 1) (current :: rest) st =
      tokenizeLoop fuel (scanStep current rest st).1 (scanStep current rest st).2 := by
  rw [tokenizeLoop]
  unfold scanStep
  by_cases h1 : current = '#'
  · simp only [if_pos h1]
  simp only [if_neg h1]
  by_cases h2 : st.insideDirective = true
  · simp only [if_pos h2]
    by_cases h3 : current = '\n'
    · simp only [if_pos h3]
    · simp only [if_neg h3]
  simp only [if_neg h2]
  by_cases h4 : current = '"' ∨ current = '\''
  · simp only [if_pos h4]
    by_cases h5 : (current = '"' ∧ st.insideString = true) ∨
        (current = '\'' ∧ st.insideChar = true)
    · simp only [if_pos h5]
    · simp only [if_neg h5]
  simp only [if_neg h4]
  by_cases h6 : st.insideString = true ∨ st.insideChar = true
  · simp only [if_pos h6]
  simp only [if_neg h6]
  by_cases h7 : current = '/' ∧ rest.head? = some '/'
  · simp only [if_pos h7, if_pos (comment_length_gt current rest h7.1)]
  simp only [if_neg h7]
  by_cases h8 : current = ':' ∧ rest.head? = some ':'
  · simp only [if_pos h8]
  simp only [if_neg h8]
  by_cases h9 : isspace current = true
  · simp only [if_pos h9]
  simp only [if_neg h9]
  by_cases h10 : ispunct current = true ∧ current ≠ '_' ∧ current ≠ '.'
  · simp only [if_pos h10]
  · simp only [if_neg h10]

/-! ## The cases of an iteration -/

/-- The eleven paths through the body of the loop of `tokenize`, each with the conditions
under which it is taken and the unread input and local variables it leaves. -/
theorem scanStep_cases (c : Char) (rest : List Char) (st : ScanState) :
    (c = '#' ∧ scanStep c rest st =
        (rest, { st with tokens := flushPending st.tokens st.token, token := [c],
                         insideDirective := true })) ∨
    (c ≠ '#' ∧ st.insideDirective = true ∧ c = '\n' ∧ scanStep c rest st =
        (rest, { st with tokens := st.tokens ++ [recognizeToken st.token], token := [],
                         insideDirective := false })) ∨
    (c ≠ '#' ∧ st.insideDirective = true ∧ c ≠ '\n' ∧ scanStep c rest st =
        (rest, { st with token := st.token ++ [c] })) ∨
    (c ≠ '#' ∧ st.insideDirective = false ∧ (c = '"' ∨ c = '\'') ∧
      ((c = '"' ∧ st.insideString = true) ∨ (c = '\'' ∧ st.insideChar = true)) ∧
      scanStep c rest st =
        (rest, { st with tokens := st.tokens ++ [recognizeToken (st.token ++ [c])],
                         token := [], insideString := false, insideChar := false })) ∨
    (c ≠ '#' ∧ st.insideDirective = false ∧ (c = '"' ∨ c = '\'') ∧
      ¬ ((c = '"' ∧ st.insideString = true) ∨ (c = '\'' ∧ st.insideChar = true)) ∧
      scanStep c rest st =
        (rest, { st with tokens := flushPending st.tokens st.token, token := [c],
                         insideString := decide (c = '"'),
                         insideChar := decide (c = '\'') })) ∨
    (c ≠ '#' ∧ st.insideDirective = false ∧ c ≠ '"' ∧ c ≠ '\'' ∧
      (st.insideString = true ∨ st.insideChar = true) ∧
      scanStep c rest st = (rest, { st with token := st.token ++ [c] })) ∨
    (c ≠ '#' ∧ st.insideDirective = false ∧ c ≠ '"' ∧ c ≠ '\'' ∧
      st.insideString = false ∧ st.insideChar = false ∧
      ((c = '/' ∧ rest.head? = some '/' ∧ scanStep c rest st =
          (((c :: rest).dropWhile (fun x => decide (x ≠ '\n'))).drop 1,
            { st with tokens := flushPending st.tokens st.token ++
                        [⟨(c :: rest).takeWhile (fun x => decide (x ≠ '\n')), .COMMENT⟩],
                      token := [] })) ∨
       (¬ (c = '/' ∧ rest.head? = some '/') ∧ c = ':' ∧ rest.head? = some ':' ∧
          scanStep c rest st =
            (rest.drop 1,
              { st with tokens := flushPending st.tokens st.token ++ [recognizeToken [c, ':']],
                        token := [] })) ∨
       (¬ (c = '/' ∧ rest.head? = some '/') ∧ ¬ (c = ':' ∧ rest.head? = some ':') ∧
          isspace c = true ∧ scanStep c rest st =
            (rest, { st with tokens := flushPending st.tokens st.token, token := [] })) ∨
       (¬ (c = '/' ∧ rest.head? = some '/') ∧ ¬ (c = ':' ∧ rest.head? = some ':') ∧
          isspace c = false ∧ (ispunct c = true ∧ c ≠ '_' ∧ c ≠ '.') ∧
          scanStep c rest st =
            (rest, { st with tokens := flushPending st.tokens st.token ++ [recognizeToken [c]],
                             token := [] })) ∨
       (¬ (c = '/' ∧ rest.head? = some '/') ∧ ¬ (c = ':' ∧ rest.head? = some ':') ∧
          isspace c = false ∧ ¬ (ispunct c = true ∧ c ≠ '_' ∧ c ≠ '.') ∧
          scanStep c rest st = (rest, { st with token := st.token ++ [c] })))) := by
  unfold scanStep
  by_cases h1 : c = '#'
  · left; exact ⟨h1, by rw [if_pos h1]⟩
  right
  rw [if_neg h1]
  by_cases h2 : st.insideDirective = true
  · rw [if_pos h2]
    by_cases h3 : c = '\n'
    · left; exact ⟨h1, h2, h3, by rw [if_pos h3]⟩
    · right; left; exact ⟨h1, h2, h3, by rw [if_neg h3]⟩
  right; right
  rw [if_neg h2]
  have h2' : st.insideDirective = false := by simpa using h2
  by_cases h4 : c = '"' ∨ c = '\''
  · rw [if_pos h4]
    by_cases h5 : (c = '"' ∧ st.insideString = true) ∨ (c = '\'' ∧ st.insideChar = true)
    · left; exact ⟨h1, h2', h4, h5, by rw [if_pos h5]⟩
    · right; left; exact ⟨h1, h2', h4, h5, by rw [if_neg h5]⟩
  right; right
  rw [if_neg h4]
  have h4a : c ≠ '"' := fun h => h4 (Or.inl h)
  have h4b : c ≠ '\'' := fun h => h4 (Or.inr h)
  by_cases h6 : st.insideString = true ∨ st.insideChar = true
  · left; exact ⟨h1, h2', h4a, h4b, h6, by rw [if_pos h6]⟩
  right
  rw [if_neg h6]
  have h6a : st.insideString = false := by
    cases hs : st.insideString with
    | false => rfl
    | true => exact absurd (Or.inl hs) h6
  have h6b : st.insideChar = false := by
    cases hs : st.insideChar with
    | false => rfl
    | true => exact absurd (Or.inr hs) h6
  refine ⟨h1, h2', h4a, h4b, h6a, h6b, ?_⟩
  by_cases h7 : c = '/' ∧ rest.head? = some '/'
  · left
    refine ⟨h7.1, h7.2, ?_⟩
    rw [if_pos h7, if_pos (comment_length_gt c rest h7.1)]
    rfl
  right
  rw [if_neg h7]
  by_cases h8 : c = ':' ∧ rest.head? = some ':'
  · left; exact ⟨h7, h8.1, h8.2, by rw [if_pos h8]⟩
  right
  rw [if_neg h8]
  by_cases h9 : isspace c = true
  · left; exact ⟨h7, h8, h9, by rw [if_pos h9]⟩
  right
  rw [if_neg h9]
  have h9' : isspace c = false := by simpa using h9
  by_cases h10 : ispunct c = true ∧ c ≠ '_' ∧ c ≠ '.'
  · left; exact ⟨h7, h8, h9', h10, by rw [if_pos h10]⟩
  · right; exact ⟨h7, h8, h9', h10, by rw [if_neg h10]⟩

theorem scanStep_input_subset (current : Char) (rest : List Char) (st : ScanState) :
    ∀ x ∈ (scanStep current rest st).1, x ∈ rest := by
  intro x hx
  rcases scanStep_cases current rest st with
    ⟨_, e⟩ | ⟨_, _, _, e⟩ | ⟨_, _, _, e⟩ | ⟨_, _, _, _, e⟩ | ⟨_, _, _, _, e⟩ |
    ⟨_, _, _, _, _, e⟩ | ⟨_, _, _, _, _, _, h⟩
  any_goals (rw [e] at hx; exact hx)
  rcases h with ⟨h7, _, e⟩ | ⟨_, _, _, e⟩ | ⟨_, _, _, e⟩ | ⟨_, _, _, _, e⟩ | ⟨_, _, _, _, e⟩
  any_goals (rw [e] at hx; first | exact hx | exact List.mem_of_mem_drop hx)
  rw [e] at hx
  simp only [comment_dropWhile current rest h7] at hx
  exact (List.dropWhile_sublist _).subset (List.mem_of_mem_drop hx)

theorem scanStep_input_length (current : Char) (rest : List Char) (st : ScanState) :
    (scanStep current rest st).1.length ≤ rest.length := by
  rcases scanStep_cases current rest st with
    ⟨_, e⟩ | ⟨_, _, _, e⟩ | ⟨_, _, _, e⟩ | ⟨_, _, _, _, e⟩ | ⟨_, _, _, _, e⟩ |
    ⟨_, _, _, _, _, e⟩ | ⟨_, _, _, _, _, _, h⟩
  any_goals (simp only [e]; exact Nat.le_refl _)
  rcases h with ⟨h7, _, e⟩ | ⟨_, _, _, e⟩ | ⟨_, _, _, e⟩ | ⟨_, _, _, _, e⟩ | ⟨_, _, _, _, e⟩
  any_goals (simp only [e]; first | exact Nat.le_refl _ | (simp only [List.length_drop]; omega))
  simp only [e]
  have := (List.dropWhile_sublist (fun c => decide (c ≠ '\n')) (l := rest)).length_le
  simp only [comment_dropWhile current rest h7, List.length_drop]
  omega

/-- Invariant rule for the loop of `tokenize`: a property of the local variables that
every iteration keeps, on characters of a given kind, holds after any number of
iterations on an input of such characters. -/
theorem tokenizeLoop_inv (good : Char → Prop) (P : ScanState → Prop)
    (hP : ∀ c rest st, good c → P st → P (scanStep c rest st).2) :
    ∀ (fuel : Nat) (s : List Char) (st : ScanState),
      (∀ c ∈ s, good c) → P st → P (tokenizeLoop fuel s st) := by
  intro fuel
  induction fuel with
  | zero => intro s st _ h; simpa [tokenizeLoop] using h
  | succ fuel ih =>
    intro s st hs h
    cases s with
    | nil => simpa [tokenizeLoop] using h
    | cons c rest =>
      rw [tokenizeLoop_succ]
      refine ih _ _ (fun x hx => ?_) (hP c rest st (hs c (List.mem_cons_self _ _)) h)
      exact hs x (List.mem_cons_of_mem _ (scanStep_input_subset c rest st x hx))

theorem mem_flushPending (t : Token) (tokens : List Token) (token : List Char) :
    t ∈ flushPending tokens token ↔ t ∈ tokens ∨ (token ≠ [] ∧ t = recognizeToken token) := by
  cases token with
  | nil => simp [flushPending]
  | cons c s => simp [flushPending]

/-! ## Invariants of the scanner -/

theorem forall_mem_flushPending (Q : Token → Prop) (tokens : List Token) (token : List Char)
    (h : ∀ t ∈ tokens, Q t) (hq : token ≠ [] → Q (recognizeToken token)) :
    ∀ t ∈ flushPending tokens token, Q t := by
  intro t ht
  rcases (mem_flushPending t tokens token).mp ht with ht | ⟨hne, rfl⟩
  · exact h t ht
  · exact hq hne

theorem forall_mem_append_singleton (Q : Token → Prop) (tokens : List Token) (x : Token)
    (h : ∀ t ∈ tokens, Q t) (hq : Q x) : ∀ t ∈ tokens ++ [x], Q t := by
  intro t ht
  rcases List.mem_append.mp ht with ht | ht
  · exact h t ht
  · rw [List.mem_singleton.mp ht]; exact hq

/-- Every iteration keeps: no emitted value is empty, and in directive mode the pending
lexeme is not empty. -/
theorem scanStep_nonempty (c : Char) (rest : List Char) (st : ScanState)
    (h : (∀ t ∈ st.tokens, t.value ≠ []) ∧ (st.insideDirective = true → st.token ≠ [])) :
    (∀ t ∈ (scanStep c rest st).2.tokens, t.value ≠ []) ∧
      ((scanStep c rest st).2.insideDirective = true → (scanStep c rest st).2.token ≠ []) := by
  obtain ⟨ht, hd⟩ := h
  have hf : ∀ t ∈ flushPending st.tokens st.token, t.value ≠ [] :=
    forall_mem_flushPending _ _ _ ht (fun hne => by rwa [recognizeToken_value])
  rcases scanStep_cases c rest st with
    ⟨h1, e⟩ | ⟨h1, h2, h3, e⟩ | ⟨h1, h2, h3, e⟩ | ⟨h1, h2, h4, h5, e⟩ | ⟨h1, h2, h4, h5, e⟩ |
    ⟨h1, h2, h4a, h4b, h6, e⟩ | ⟨h1, h2, h4a, h4b, h6a, h6b, h⟩
  · rw [e]; exact ⟨hf, fun _ => by simp⟩
  · rw [e]
    exact ⟨forall_mem_append_singleton _ _ _ ht (by rw [recognizeToken_value]; exact hd h2),
      fun h => by simp at h⟩
  · rw [e]; exact ⟨ht, fun _ => by simp⟩
  · rw [e]
    exact ⟨forall_mem_append_singleton _ _ _ ht (by rw [recognizeToken_value]; simp),
      fun h => by rw [h2] at h; cases h⟩
  · rw [e]; exact ⟨hf, fun h => by rw [h2] at h; cases h⟩
  · rw [e]; exact ⟨ht, fun h => by rw [h2] at h; cases h⟩
  · rcases h with ⟨h7, _, e⟩ | ⟨_, _, _, e⟩ | ⟨_, _, _, e⟩ | ⟨_, _, _, _, e⟩ | ⟨_, _, _, _, e⟩
    · rw [e]
      exact ⟨forall_mem_append_singleton _ _ _ hf (by rw [h7]; simp [List.takeWhile]),
        fun h => by rw [h2] at h; cases h⟩
    · rw [e]
      exact ⟨forall_mem_append_singleton _ _ _ hf (by rw [recognizeToken_value]; simp),
        fun h => by rw [h2] at h; cases h⟩
    · rw [e]; exact ⟨hf, fun h => by rw [h2] at h; cases h⟩
    · rw [e]
      exact ⟨forall_mem_append_singleton _ _ _ hf (by rw [recognizeToken_value]; simp),
        fun h => by rw [h2] at h; cases h⟩
    · rw [e]; exact ⟨ht, fun h => by rw [h2] at h; cases h⟩

/-- Every iteration keeps: not both inside a string and inside a character literal. -/
theorem scanStep_string_char (c : Char) (rest : List Char) (st : ScanState)
    (h : ¬ (st.insideString = true ∧ st.insideChar = true)) :
    ¬ ((scanStep c rest st).2.insideString = true ∧
        (scanStep c rest st).2.insideChar = true) := by
  rcases scanStep_cases c rest st with
    ⟨h1, e⟩ | ⟨h1, h2, h3, e⟩ | ⟨h1, h2, h3, e⟩ | ⟨h1, h2, h4, h5, e⟩ | ⟨h1, h2, h4, h5, e⟩ |
    ⟨h1, h2, h4a, h4b, h6, e⟩ | ⟨h1, h2, h4a, h4b, h6a, h6b, h'⟩
  · rw [e]; exact h
  · rw [e]; exact h
  · rw [e]; exact h
  · rw [e]; simp
  · rw [e]
    simp only [decide_eq_true_eq]
    rintro ⟨ha, hb⟩
    rw [ha] at hb
    exact absurd hb (by decide)
  · rw [e]; exact h
  · rcases h' with ⟨_, _, e⟩ | ⟨_, _, _, e⟩ | ⟨_, _, _, e⟩ | ⟨_, _, _, _, e⟩ | ⟨_, _, _, _, e⟩
    all_goals (rw [e]; exact h)

/-- Without `#` an iteration does not enter directive mode. -/
theorem scanStep_no_directive (c : Char) (rest : List Char) (st : ScanState)
    (hc : c ≠ '#') (h : st.insideDirective = false) :
    (scanStep c rest st).2.insideDirective = false := by
  rcases scanStep_cases c rest st with
    ⟨h1, e⟩ | ⟨h1, h2, h3, e⟩ | ⟨h1, h2, h3, e⟩ | ⟨h1, h2, h4, h5, e⟩ | ⟨h1, h2, h4, h5, e⟩ |
    ⟨h1, h2, h4a, h4b, h6, e⟩ | ⟨h1, h2, h4a, h4b, h6a, h6b, h'⟩
  · exact absurd h1 hc
  · rw [e]
  · rw [e]; exact h
  · rw [e]; exact h
  · rw [e]; exact h
  · rw [e]; exact h
  · rcases h' with ⟨_, _, e⟩ | ⟨_, _, _, e⟩ | ⟨_, _, _, e⟩ | ⟨_, _, _, _, e⟩ | ⟨_, _, _, _, e⟩
    all_goals (rw [e]; exact h)

/-- Without quotes an iteration does not enter a literal. -/
theorem scanStep_no_literal (c : Char) (rest : List Char) (st : ScanState)
    (hc : c ≠ '"' ∧ c ≠ '\'') (h : st.insideString = false ∧ st.insideChar = false) :
    (scanStep c rest st).2.insideString = false ∧
      (scanStep c rest st).2.insideChar = false := by
  rcases scanStep_cases c rest st with
    ⟨h1, e⟩ | ⟨h1, h2, h3, e⟩ | ⟨h1, h2, h3, e⟩ | ⟨h1, h2, h4, h5, e⟩ | ⟨h1, h2, h4, h5, e⟩ |
    ⟨h1, h2, h4a, h4b, h6, e⟩ | ⟨h1, h2, h4a, h4b, h6a, h6b, h'⟩
  · rw [e]; exact h
  · rw [e]; exact h
  · rw [e]; exact h
  · exact absurd h4 (by simp [hc.1, hc.2])
  · exact absurd h4 (by simp [hc.1, hc.2])
  · rw [e]; exact h
  · rcases h' with ⟨_, _, e⟩ | ⟨_, _, _, e⟩ | ⟨_, _, _, e⟩ | ⟨_, _, _, _, e⟩ | ⟨_, _, _, _, e⟩
    all_goals (rw [e]; exact h)

/-- The scanner state reached from a clean start keeps: no emitted value is empty, and in
directive mode the pending lexeme is not empty. -/
theorem tokenizeLoop_nonempty (fuel : Nat) (code : List Char) :
    (∀ t ∈ (tokenizeLoop fuel code initState).tokens, t.value ≠ []) ∧
      ((tokenizeLoop fuel code initState).insideDirective = true →
        (tokenizeLoop fuel code initState).token ≠ []) :=
  tokenizeLoop_inv (fun _ => True)
    (fun st => (∀ t ∈ st.tokens, t.value ≠ []) ∧ (st.insideDirective = true → st.token ≠ []))
    (fun c rest st _ h => scanStep_nonempty c rest st h) fuel code initState
    (fun _ _ => trivial) ⟨by simp [initState], by simp [initState]⟩

theorem tokenize_unterminated (c : List Char)
    (hc : ∀ x ∈ c, x ≠ '#' ∧ x ≠ '"' ∧ x ≠ '\'') :
    tokenize ('"' :: c) = [recognizeToken ('"' :: c)] := by
  unfold tokenize
  have h1 : tokenizeLoop ('"' :: c).length ('"' :: c) initState =
      tokenizeLoop (0 + c.length) (c ++ [])
        { initState with token := ['"'], insideString := true } := by
    rw [List.length_cons, tokenizeLoop]
    simp [initState, flushPending]
  rw [h1, tokenizeLoop_string c [] 0 _ rfl rfl hc]
  simp [tokenizeLoop, initState, flushPending]

theorem not_rmatch_stringRegex (c : List Char) (hc : ∀ x ∈ c, x ≠ '"') :
    stringRegex.rmatch ('"' :: c) = false := by
  cases hm : stringRegex.rmatch ('"' :: c) with
  | false => rfl
  | true =>
    exfalso
    unfold stringRegex at hm
    obtain ⟨u, v, huv, hu, hv⟩ := (Regex.rmatch_seq _ _ _).mp hm
    obtain ⟨x, hx, _⟩ := (Regex.rmatch_cls _ _).mp hu
    subst hx
    simp only [List.singleton_append, List.cons.injEq] at huv
    obtain ⟨_, rfl⟩ := huv
    obtain ⟨u', v', huv', _, hv'⟩ := (Regex.rmatch_seq _ _ _).mp hv
    obtain ⟨y, hy, hyq⟩ := (Regex.rmatch_cls _ _).mp hv'
    have hy' : y = '"' := by simpa using hyq
    subst hy hy'
    exact hc '"' (by rw [huv']; simp) rfl

theorem recognizeToken_unterminated (c : List Char) (hc : ∀ x ∈ c, x ≠ '"') :
    recognizeToken ('"' :: c) = ⟨'"' :: c, .UNKNOWN⟩ := by
  unfold recognizeToken
  rw [if_neg (not_mem_keywords_of_head '"' _ (by decide)),
    if_neg (by rw [Regex.not_rmatch_of_first _ '"' _ (by decide)]; simp),
    if_neg (by rw [Regex.not_rmatch_of_first _ '"' _ (by decide)]; simp),
    if_neg (by rw [Regex.not_rmatch_of_first _ '"' _ (by decide)]; simp),
    if_neg (by rw [not_rmatch_stringRegex c hc]; simp),
    if_neg (by rw [Regex.not_rmatch_of_first _ '"' _ (by decide)]; simp),
    if_neg (by rw [Regex.not_rmatch_of_first _ '"' _ (by decide)]; simp),
    if_neg (by rw [Regex.not_rmatch_of_first _ '"' _ (by decide)]; simp),
    if_neg (by rw [Regex.not_rmatch_of_first _ '"' _ (by decide)]; simp),
    if_neg (by rw [Regex.not_rmatch_of_first _ '"' _ (by decide)]; simp)]

theorem isPunctClass_cases (c : Char) (h : isPunctClass c = true) :
    c = ',' ∨ c = ';' ∨ c = '(' ∨ c = ')' ∨ c = '{' ∨ c = '}' ∨ c = '<' ∨ c = '>' := by
  simpa [isPunctClass, or_assoc] using h

/-! ## Earlier tokens are kept -/

theorem flushPending_append_left (pre tokens : List Token) (token : List Char) :
    flushPending (pre ++ tokens) token = pre ++ flushPending tokens token := by
  cases token with
  | nil => rfl
  | cons c s => simp [flushPending]

/-- An iteration treats the tokens already emitted as a prefix that it never reads. -/
theorem scanStep_withEarlier (pre : List Token) (c : Char) (rest : List Char)
    (st : ScanState) :
    scanStep c rest (withEarlier pre st) =
      ((scanStep c rest st).1, withEarlier pre (scanStep c rest st).2) := by
  unfold scanStep withEarlier
  simp only []
  by_cases h1 : c = '#'
  · simp only [if_pos h1, flushPending_append_left]
  simp only [if_neg h1]
  by_cases h2 : st.insideDirective = true
  · simp only [if_pos h2]
    by_cases h3 : c = '\n'
    · simp only [if_pos h3, List.append_assoc]
    · simp only [if_neg h3]
  simp only [if_neg h2]
  by_cases h4 : c = '"' ∨ c = '\''
  · simp only [if_pos h4]
    by_cases h5 : (c = '"' ∧ st.insideString = true) ∨ (c = '\'' ∧ st.insideChar = true)
    · simp only [if_pos h5, List.append_assoc]
    · simp only [if_neg h5, flushPending_append_left]
  simp only [if_neg h4]
  by_cases h6 : st.insideString = true ∨ st.insideChar = true
  · simp only [if_pos h6]
  simp only [if_neg h6]
  by_cases h7 : c = '/' ∧ rest.head? = some '/'
  · simp only [if_pos h7, if_pos (comment_length_gt c rest h7.1), flushPending_append_left,
      List.append_assoc]
  simp only [if_neg h7]
  by_cases h8 : c = ':' ∧ rest.head? = some ':'
  · simp only [if_pos h8, flushPending_append_left, List.append_assoc]
  simp only [if_neg h8]
  by_cases h9 : isspace c = true
  · simp only [if_pos h9, flushPending_append_left]
  simp only [if_neg h9]
  by_cases h10 : ispunct c = true ∧ c ≠ '_' ∧ c ≠ '.'
  · simp only [if_pos h10, flushPending_append_left, List.append_assoc]
  · simp only [if_neg h10]

theorem tokenizeLoop_withEarlier (pre : List Token) (fuel : Nat) :
    ∀ (s : List Char) (st : ScanState),
      tokenizeLoop fuel s (withEarlier pre st) = withEarlier pre (tokenizeLoop fuel s st) := by
  induction fuel with
  | zero => intro s st; simp [tokenizeLoop]
  | succ fuel ih =>
    intro s st
    cases s with
    | nil => simp [tokenizeLoop]
    | cons c rest =>
      rw [tokenizeLoop_succ, tokenizeLoop_succ, scanStep_withEarlier]
      exact ih _ _

/-! ## A space between two texts -/

/-- Outside every mode, on a character that is no `#`, quote or slash, an iteration does
the same whether the text ends after `a` or goes on with a space. -/
theorem scanStep_before_space (c : Char) (a b : List Char) (st : ScanState)
    (hS : st.insideString = false) (hC : st.insideChar = false)
    (hD : st.insideDirective = false)
    (h1 : c ≠ '#') (h2 : c ≠ '"') (h3 : c ≠ '\'') (h4 : c ≠ '/') :
    scanStep c (a ++ ' ' :: b) st =
        ((scanStep c a st).1 ++ ' ' :: b, (scanStep c a st).2) ∧
      (scanStep c a st).2.insideString = false ∧ (scanStep c a st).2.insideChar = false ∧
      (scanStep c a st).2.insideDirective = false := by
  have hq : ¬ (c = '"' ∨ c = '\'') := by simp [h2, h3]
  have hi : ¬ (st.insideString = true ∨ st.insideChar = true) := by simp [hS, hC]
  have hd : ¬ (st.insideDirective = true) := by simp [hD]
  have hsl : ∀ r : List Char, ¬ (c = '/' ∧ r.head? = some '/') := fun r h => h4 h.1
  have hhead : (a ++ ' ' :: b).head? = some ':' ↔ a.head? = some ':' := by
    cases a with
    | nil => simp
    | cons x a => simp
  unfold scanStep
  simp only [if_neg h1, if_neg hd, if_neg hq, if_neg hi, if_neg (hsl _), hhead]
  by_cases h8 : c = ':' ∧ a.head? = some ':'
  · simp only [if_pos h8]
    cases a with
    | nil => simp at h8
    | cons x a => simp [hS, hC, hD]
  simp only [if_neg h8]
  by_cases h9 : isspace c = true
  · simp only [if_pos h9]
    exact ⟨trivial, hS, hC, hD⟩
  simp only [if_neg h9]
  by_cases h10 : ispunct c = true ∧ c ≠ '_' ∧ c ≠ '.'
  · simp only [if_pos h10]
    exact ⟨trivial, hS, hC, hD⟩
  · simp only [if_neg h10]
    exact ⟨trivial, hS, hC, hD⟩

/-- Scanning `a`, a space and `b` from a state outside every mode: the loop first does on
`a` what it does on `a` alone, then goes on with the space. -/
theorem tokenizeLoop_before_space (b : List Char) (n : Nat) :
    ∀ (a : List Char) (st : ScanState), a.length ≤ n →
      (∀ c ∈ a, c ≠ '#' ∧ c ≠ '"' ∧ c ≠ '\'' ∧ c ≠ '/') →
      st.insideString = false → st.insideChar = false → st.insideDirective = false →
      ∀ F, (a ++ ' ' :: b).length ≤ F →
        tokenizeLoop F (a ++ ' ' :: b) st =
            tokenizeLoop (b.length + 1) (' ' :: b) (tokenizeLoop a.length a st) ∧
          (tokenizeLoop a.length a st).insideString = false ∧
          (tokenizeLoop a.length a st).insideChar = false ∧
          (tokenizeLoop a.length a st).insideDirective = false := by
  induction n with
  | zero =>
    intro a st ha _ hS hC hD F hF
    have : a = [] := List.length_eq_zero.mp (Nat.le_zero.mp ha)
    subst this
    simp only [List.nil_append, List.length_nil, tokenizeLoop_nil]
    exact ⟨tokenizeLoop_fuel F (b.length + 1) _ st hF (by simp), hS, hC, hD⟩
  | succ n ih =>
    intro a st ha hclean hS hC hD F hF
    cases a with
    | nil =>
      simp only [List.nil_append, List.length_nil, tokenizeLoop_nil]
      exact ⟨tokenizeLoop_fuel F (b.length + 1) _ st hF (by simp), hS, hC, hD⟩
    | cons c a =>
      obtain ⟨h1, h2, h3, h4⟩ := hclean c (List.mem_cons_self _ _)
      obtain ⟨hstep, hS', hC', hD'⟩ := scanStep_before_space c a b st hS hC hD h1 h2 h3 h4
      have hlen := scanStep_input_length c a st
      simp only [List.length_cons, Nat.add_le_add_iff_right] at ha
      cases F with
      | zero => simp at hF
      | succ F =>
        simp only [List.cons_append, List.length_cons, Nat.add_le_add_iff_right] at hF
        have hF' : ((scanStep c a st).1 ++ ' ' :: b).length ≤ F := by
          simp only [List.length_append, List.length_cons] at hF ⊢
          omega
        have hrec := ih (scanStep c a st).1 (scanStep c a st).2 (le_trans hlen ha)
          (fun x hx => hclean x (List.mem_cons_of_mem _ (scanStep_input_subset c a st x hx)))
          hS' hC' hD' F hF'
        have hrun : tokenizeLoop (c :: a).length (c :: a) st =
            tokenizeLoop (scanStep c a st).1.length (scanStep c a st).1 (scanStep c a st).2 := by
          rw [List.length_cons, tokenizeLoop_succ]
          exact tokenizeLoop_fuel _ _ _ _ hlen (Nat.le_refl _)
        rw [List.cons_append, tokenizeLoop_succ, hstep, hrun]
        exact hrec

/-! ## Operators -/

theorem first_operatorRegex_punct (x : Char) (h : operatorRegex.first x = true) :
    ispunct x = true ∧ x ≠ '_' ∧ x ≠ '.' := by
  simp [operatorRegex, alts, lit, first, chr, nullable] at h
  rcases h with rfl | rfl | rfl | rfl | rfl | rfl | rfl | rfl | rfl | rfl | rfl | rfl | rfl |
    rfl | rfl | rfl | rfl | rfl <;> decide

/-- What the category says about the rules that applied: Operator needs the operator
pattern, Punctuation needs the punctuation pattern and excludes the operator pattern. -/
theorem recognizeToken_late_rules (s : List Char) :
    ((recognizeToken s).type = .OPERATOR → operatorRegex.rmatch s = true) ∧
      ((recognizeToken s).type = .PUNCTUATION →
        ¬ operatorRegex.rmatch s = true ∧ punctuationRegex.rmatch s = true) := by
  unfold recognizeToken
  by_cases h1 : s ∈ keywords
  · rw [if_pos h1]; simp
  rw [if_neg h1]
  by_cases h2 : directiveRegex.rmatch s = true
  · rw [if_pos h2]; simp
  rw [if_neg h2]
  by_cases h3 : intRegex.rmatch s = true
  · rw [if_pos h3]; simp
  rw [if_neg h3]
  by_cases h4 : floatRegex.rmatch s = true
  · rw [if_pos h4]; simp
  rw [if_neg h4]
  by_cases h5 : stringRegex.rmatch s = true
  · rw [if_pos h5]; simp
  rw [if_neg h5]
  by_cases h6 : charRegex.rmatch s = true
  · rw [if_pos h6]; simp
  rw [if_neg h6]
  by_cases h7 : memberAccessRegex.rmatch s = true
  · rw [if_pos h7]; simp
  rw [if_neg h7]
  by_cases h8 : operatorRegex.rmatch s = true
  · rw [if_pos h8]; simp [h8]
  rw [if_neg h8]
  by_cases h9 : identifierRegex.rmatch s = true
  · rw [if_pos h9]; simp
  rw [if_neg h9]
  by_cases h10 : punctuationRegex.rmatch s = true
  · rw [if_pos h10]; simp [h8, h10]
  · rw [if_neg h10]; simp

theorem recognizeToken_operator (s : List Char) (h : (recognizeToken s).type = .OPERATOR) :
    operatorRegex.rmatch s = true :=
  (recognizeToken_late_rules s).1 h

/-- A pending lexeme that has no punctuation character other than `_` and `.` is not
classified as an operator. -/
theorem recognizeToken_buffer_not_operator (token : List Char) (hne : token ≠ [])
    (h : ∀ x ∈ token, ¬ (ispunct x = true ∧ x ≠ '_' ∧ x ≠ '.')) :
    (recognizeToken token).type ≠ .OPERATOR := by
  intro hop
  cases token with
  | nil => exact hne rfl
  | cons x r =>
    exact h x (List.mem_cons_self _ _)
      (first_operatorRegex_punct x
        (Regex.first_of_rmatch _ x r (recognizeToken_operator _ hop)))

theorem twoCharOperators_head :
    ∀ s ∈ ["==".toList, "!=".toList, ">=".toList, "<=".toList, "&&".toList, "||".toList],
      s.head?.map (fun x => decide (ispunct x = true ∧ x ≠ '_' ∧ x ≠ '.')) = some true := by
  decide

theorem buffer_not_twoCharOperator (token : List Char)
    (h : ∀ x ∈ token, ¬ (ispunct x = true ∧ x ≠ '_' ∧ x ≠ '.')) :
    token ∉ ["==".toList, "!=".toList, ">=".toList, "<=".toList, "&&".toList,
      "||".toList] := by
  intro hm
  have hh := twoCharOperators_head token hm
  cases token with
  | nil => simp at hh
  | cons x r =>
    simp only [List.head?_cons, Option.map_some', Option.some.injEq, decide_eq_true_eq] at hh
    exact h x (List.mem_cons_self _ _) hh

/-- Every iteration on a character that is no `#` and no quote keeps: the scanner is
outside every mode, the pending lexeme has no punctuation character other than `_` and
`.`, and every emitted token satisfies `operatorTokenOk`. -/
theorem scanStep_operator (c : Char) (rest : List Char) (st : ScanState)
    (hc : c ≠ '#' ∧ c ≠ '"' ∧ c ≠ '\'')
    (h : (st.insideString = false ∧ st.insideChar = false ∧ st.insideDirective = false) ∧
      (∀ x ∈ st.token, ¬ (ispunct x = true ∧ x ≠ '_' ∧ x ≠ '.')) ∧
      (∀ t ∈ st.tokens, operatorTokenOk t)) :
    ((scanStep c rest st).2.insideString = false ∧ (scanStep c rest st).2.insideChar = false ∧
        (scanStep c rest st).2.insideDirective = false) ∧
      (∀ x ∈ (scanStep c rest st).2.token, ¬ (ispunct x = true ∧ x ≠ '_' ∧ x ≠ '.')) ∧
      (∀ t ∈ (scanStep c rest st).2.tokens, operatorTokenOk t) := by
  obtain ⟨⟨hS, hC, hD⟩, hbuf, htok⟩ := h
  have hf : ∀ t ∈ flushPending st.tokens st.token, operatorTokenOk t :=
    forall_mem_flushPending _ _ _ htok
      (fun hne => ⟨fun hop => absurd hop (recognizeToken_buffer_not_operator _ hne hbuf),
        by rw [recognizeToken_value]; exact buffer_not_twoCharOperator _ hbuf⟩)
  rcases scanStep_cases c rest st with
    ⟨h1, e⟩ | ⟨h1, h2, h3, e⟩ | ⟨h1, h2, h3, e⟩ | ⟨h1, h2, h4, h5, e⟩ | ⟨h1, h2, h4, h5, e⟩ |
    ⟨h1, h2, h4a, h4b, h6, e⟩ | ⟨h1, h2, h4a, h4b, h6a, h6b, h'⟩
  · exact absurd h1 hc.1
  · rw [hD] at h2; cases h2
  · rw [hD] at h2; cases h2
  · exact absurd h4 (by simp [hc.2.1, hc.2.2])
  · exact absurd h4 (by simp [hc.2.1, hc.2.2])
  · rw [hS, hC] at h6; simp at h6
  · rcases h' with ⟨h7, _, e⟩ | ⟨_, h8, _, e⟩ | ⟨_, _, _, e⟩ | ⟨_, _, _, h10, e⟩ |
      ⟨_, _, _, h10, e⟩
    · rw [e]
      refine ⟨⟨hS, hC, hD⟩, by simp, forall_mem_append_singleton _ _ _ hf
        ⟨fun hop => (by cases hop), ?_⟩⟩
      subst h7
      simp only [List.takeWhile, ne_eq, show ¬ ('/' = '\n') by decide, not_false_eq_true,
        decide_True]
      intro hm
      have hh : ∀ s ∈ ["==".toList, "!=".toList, ">=".toList, "<=".toList, "&&".toList,
          "||".toList], s.head? ≠ some '/' := by decide
      exact hh _ hm rfl
    · rw [e]
      subst h8
      refine ⟨⟨hS, hC, hD⟩, by simp, forall_mem_append_singleton _ _ _ hf
        ⟨fun _ => Or.inr (by rw [recognizeToken_value]; rfl), ?_⟩⟩
      rw [recognizeToken_value]
      decide
    · rw [e]; exact ⟨⟨hS, hC, hD⟩, by simp, hf⟩
    · rw [e]
      refine ⟨⟨hS, hC, hD⟩, by simp, forall_mem_append_singleton _ _ _ hf
        ⟨fun _ => Or.inl (by rw [recognizeToken_value]; rfl), ?_⟩⟩
      rw [recognizeToken_value]
      intro hm
      have hl : ∀ s ∈ ["==".toList, "!=".toList, ">=".toList, "<=".toList, "&&".toList,
          "||".toList], s.length = 2 := by decide
      exact absurd (hl _ hm) (by simp)
    · rw [e]
      refine ⟨⟨hS, hC, hD⟩, ?_, htok⟩
      intro x hx
      rcases List.mem_append.mp hx with hx | hx
      · exact hbuf x hx
      · rw [List.mem_singleton.mp hx]; exact h10

/-! ## The keyword `long long` -/

theorem ne_longLong_of_head (q : Char) (r : List Char) (h : q ≠ 'l') :
    q :: r ≠ "long long".toList := by
  intro e
  have e' : q :: r = 'l' :: "ong long".toList := e
  exact h (List.cons.inj e').1

theorem ne_longLong_of_no_space (t : List Char) (h : ∀ x ∈ t, isspace x = false) :
    t ≠ "long long".toList := by
  intro e
  subst e
  exact absurd (h ' ' (by decide)) (by decide)

theorem longLongInv_token (st : ScanState) (h : longLongInv st) :
    st.token ≠ "long long".toList := by
  obtain ⟨_, hhead, hsp, _⟩ := h
  by_cases hm : st.insideString = true ∨ st.insideChar = true ∨ st.insideDirective = true
  · obtain ⟨q, r, e, hq⟩ := hhead hm
    rw [e]
    exact ne_longLong_of_head q r hq
  · refine ne_longLong_of_no_space _ (hsp ?_)
    simp only [not_or, Bool.not_eq_true] at hm
    exact hm

theorem longLongInv_flush (st : ScanState) (h : longLongInv st) :
    ∀ t ∈ flushPending st.tokens st.token, t.value ≠ "long long".toList :=
  forall_mem_flushPending _ _ _ h.1
    (fun _ => by rw [recognizeToken_value]; exact longLongInv_token st h)

/-- An iteration keeps `longLongInv`, provided that a `#` does not arrive inside a
literal. -/
theorem scanStep_longLong (c : Char) (rest : List Char) (st : ScanState)
    (hH : c = '#' → st.insideString = false ∧ st.insideChar = false)
    (h : longLongInv st) : longLongInv (scanStep c rest st).2 := by
  have hf := longLongInv_flush st h
  have htk := longLongInv_token st h
  obtain ⟨ht, hhead, hsp, hM⟩ := h
  rcases scanStep_cases c rest st with
    ⟨h1, e⟩ | ⟨h1, h2, h3, e⟩ | ⟨h1, h2, h3, e⟩ | ⟨h1, h2, h4, h5, e⟩ | ⟨h1, h2, h4, h5, e⟩ |
    ⟨h1, h2, h4a, h4b, h6, e⟩ | ⟨h1, h2, h4a, h4b, h6a, h6b, h'⟩
  · rw [e]
    refine ⟨hf, fun _ => ⟨c, [], rfl, by rw [h1]; decide⟩, fun hx => ?_, fun _ => hH h1⟩
    simp at hx
  · rw [e]
    obtain ⟨hS, hC⟩ := hM h2
    refine ⟨forall_mem_append_singleton _ _ _ ht (by rwa [recognizeToken_value]),
      fun hx => ?_, fun _ => by simp, fun hx => by simp at hx⟩
    simp [hS, hC] at hx
  · rw [e]
    obtain ⟨q, r, eq, hq⟩ := hhead (Or.inr (Or.inr h2))
    refine ⟨ht, fun _ => ⟨q, r ++ [c], by simp [eq], hq⟩, fun hx => ?_, fun _ => hM h2⟩
    simp [h2] at hx
  · rw [e]
    have hm : st.insideString = true ∨ st.insideChar = true ∨ st.insideDirective = true := by
      rcases h5 with ⟨_, hs⟩ | ⟨_, hs⟩
      · exact Or.inl hs
      · exact Or.inr (Or.inl hs)
    obtain ⟨q, r, eq, hq⟩ := hhead hm
    refine ⟨forall_mem_append_singleton _ _ _ ht ?_, fun hx => ?_, fun _ => by simp,
      fun _ => ⟨rfl, rfl⟩⟩
    · rw [recognizeToken_value, eq]
      exact ne_longLong_of_head q (r ++ [c]) hq
    · simp [h2] at hx
  · rw [e]
    refine ⟨hf, fun _ => ⟨c, [], rfl, ?_⟩, fun hx => ?_, fun hx => ?_⟩
    · rcases h4 with rfl | rfl <;> decide
    · rcases h4 with rfl | rfl <;> simp at hx
    · rw [h2] at hx; cases hx
  · rw [e]
    have hm : st.insideString = true ∨ st.insideChar = true ∨ st.insideDirective = true := by
      rcases h6 with hs | hs
      · exact Or.inl hs
      · exact Or.inr (Or.inl hs)
    obtain ⟨q, r, eq, hq⟩ := hhead hm
    refine ⟨ht, fun _ => ⟨q, r ++ [c], by simp [eq], hq⟩, fun hx => ?_, fun hx => ?_⟩
    · rcases h6 with hs | hs
      · rw [hx.1] at hs; cases hs
      · rw [hx.2.1] at hs; cases hs
    · rw [h2] at hx; cases hx
  · have hno : ¬ (st.insideString = true ∨ st.insideChar = true ∨
        st.insideDirective = true) := by simp [h6a, h6b, h2]
    have hsp' := hsp ⟨h6a, h6b, h2⟩
    rcases h' with ⟨h7, _, e⟩ | ⟨_, h8, _, e⟩ | ⟨_, _, _, e⟩ | ⟨_, _, _, _, e⟩ |
      ⟨_, _, h9, _, e⟩
    · rw [e]
      refine ⟨forall_mem_append_singleton _ _ _ hf ?_, fun hx => absurd hx hno,
        fun _ => by simp, fun hx => by rw [h2] at hx; cases hx⟩
      subst h7
      simp only [List.takeWhile, ne_eq, show ¬ ('/' = '\n') by decide, not_false_eq_true,
        decide_True]
      exact ne_longLong_of_head _ _ (by decide)
    · rw [e]
      refine ⟨forall_mem_append_singleton _ _ _ hf ?_, fun hx => absurd hx hno,
        fun _ => by simp, fun hx => by rw [h2] at hx; cases hx⟩
      rw [recognizeToken_value, h8]
      exact ne_longLong_of_head _ _ (by decide)
    · rw [e]
      exact ⟨hf, fun hx => absurd hx hno, fun _ => by simp,
        fun hx => by rw [h2] at hx; cases hx⟩
    · rw [e]
      refine ⟨forall_mem_append_singleton _ _ _ hf ?_, fun hx => absurd hx hno,
        fun _ => by simp, fun hx => by rw [h2] at hx; cases hx⟩
      rw [recognizeToken_value]
      intro e'
      have hl : (1 : Nat) = "long long".toList.length := congrArg List.length e'
      exact absurd hl (by decide)
    · rw [e]
      refine ⟨ht, fun hx => absurd hx hno, fun _ => ?_, fun hx => by rw [h2] at hx; cases hx⟩
      intro x hx
      rcases List.mem_append.mp hx with hx | hx
      · exact hsp' x hx
      · rw [List.mem_singleton.mp hx]; exact h9

theorem longLongInv_init : longLongInv initState := by
  refine ⟨by simp [initState], fun h => ?_, fun _ => by simp [initState], fun h => ?_⟩
  · simp [initState] at h
  · simp [initState] at h

/-! ## The renderer -/

/-- The change of the indentation depth that a token causes. -/
theorem renderToken_indent (st : RenderState) (token : Token) :
    (∃ st', renderToken st token = .ok st' ∧
        st'.indentLevel = st.indentLevel + (if token.value = ['{'] then 1 else 0) -
          (if token.value = ['}'] then 1 else 0)) ∨
      (∃ e, renderToken st token = .error e ∧
        e.indentLevel = st.indentLevel + (if token.value = ['{'] then 1 else 0) -
          (if token.value = ['}'] then 1 else 0) ∧
        st.indentLevel + (if token.value = ['{'] then 1 else 0) -
          (if token.value = ['}'] then 1 else 0) < 0) := by
  unfold renderToken
  by_cases h1 : token.value = ['{']
  · have h2 : ¬ token.value = ['}'] := by rw [h1]; decide
    rw [if_pos h1]
    unfold appendIndent
    by_cases hn : st.indentLevel + 1 < 0
    · right
      simp only [if_pos hn, if_pos h1, if_neg h2]
      exact ⟨_, rfl, by simp, by omega⟩
    · left
      simp only [if_neg hn, if_pos h1, if_neg h2]
      exact ⟨_, rfl, by simp⟩
  rw [if_neg h1]
  by_cases h2 : token.value = ['}']
  · rw [if_pos h2]
    unfold appendIndent
    by_cases hn : st.indentLevel - 1 < 0
    · right
      simp only [if_pos hn, if_neg h1, if_pos h2]
      exact ⟨_, rfl, by simp, by omega⟩
    · left
      simp only [if_neg hn, if_neg h1, if_pos h2]
      exact ⟨_, rfl, by simp⟩
  rw [if_neg h2]
  by_cases h3 : token.value = ";".toList ∨ token.value = ":".toList
  · rw [if_pos h3]
    unfold appendIndent
    by_cases hn : st.indentLevel < 0
    · right
      simp only [if_pos hn, if_neg h1, if_neg h2]
      exact ⟨_, rfl, by simp, by omega⟩
    · left
      simp only [if_neg hn, if_neg h1, if_neg h2]
      exact ⟨_, rfl, by simp⟩
  rw [if_neg h3]
  by_cases h4 : token.value = "\n".toList
  · rw [if_pos h4]
    unfold appendIndent
    by_cases hn : st.indentLevel < 0
    · right
      simp only [if_pos hn, if_neg h1, if_neg h2]
      exact ⟨_, rfl, by simp, by omega⟩
    · left
      simp only [if_neg hn, if_neg h1, if_neg h2]
      exact ⟨_, rfl, by simp⟩
  · left
    simp only [if_neg h4, if_neg h1, if_neg h2]
    exact ⟨_, rfl, by simp⟩

theorem countOpen_cons (t : Token) (ts : List Token) :
    countOpen (t :: ts) = (if t.value = ['{'] then 1 else 0) + countOpen ts := by
  unfold countOpen
  by_cases h : t.value = ['{']
  · simp only [List.filter_cons, decide_eq_true h, if_pos h, if_true, List.length_cons]
    omega
  · simp only [List.filter_cons, decide_eq_false h, if_neg h, Bool.false_eq_true, if_false]
    omega

theorem countClose_cons (t : Token) (ts : List Token) :
    countClose (t :: ts) = (if t.value = ['}'] then 1 else 0) + countClose ts := by
  unfold countClose
  by_cases h : t.value = ['}']
  · simp only [List.filter_cons, decide_eq_true h, if_pos h, if_true, List.length_cons]
    omega
  · simp only [List.filter_cons, decide_eq_false h, if_neg h, Bool.false_eq_true, if_false]
    omega

/-- Whether the loop ends or is left, the depth is the start depth plus the number of `{`
minus the number of `}` among the tokens that were reached. -/
theorem renderLoop_indent (tokens : List Token) :
    ∀ st : RenderState,
      (renderOutcome (renderLoop tokens st)).indentLevel =
        st.indentLevel + countOpen (tokens.take (tokensSeen tokens st)) -
          countClose (tokens.take (tokensSeen tokens st)) := by
  induction tokens with
  | nil => intro st; simp [renderLoop, renderOutcome, tokensSeen, countOpen, countClose]
  | cons t ts ih =>
    intro st
    rcases renderToken_indent st t with ⟨st', e, hl⟩ | ⟨err, e, hl, _⟩
    · simp only [renderLoop, tokensSeen, e, List.take_succ_cons, countOpen_cons,
        countClose_cons, ih st', hl]
      split_ifs <;> push_cast <;> omega
    · simp only [renderLoop, tokensSeen, e, renderOutcome, List.take_succ_cons, List.take_zero,
        countOpen_cons, countClose_cons, hl]
      simp only [countOpen, countClose, List.filter_nil, List.length_nil]
      split_ifs <;> push_cast <;> omega

/-- When no prefix has more `}` than the start depth allows, the loop is not left by an
exception. -/
theorem renderLoop_ok (tokens : List Token) :
    ∀ st : RenderState,
      (∀ p, p <+: tokens → (countClose p : Int) ≤ st.indentLevel + countOpen p) →
      ∃ st', renderLoop tokens st = .ok st' ∧ tokensSeen tokens st = tokens.length ∧
        st'.indentLevel = st.indentLevel + countOpen tokens - countClose tokens := by
  induction tokens with
  | nil =>
    intro st _
    exact ⟨st, rfl, rfl, by simp [countOpen, countClose]⟩
  | cons t ts ih =>
    intro st hp
    have h1 := hp [t] (by simp)
    rw [countOpen_cons, countClose_cons] at h1
    simp only [countOpen, countClose, List.filter_nil, List.length_nil, Nat.add_zero] at h1
    rcases renderToken_indent st t with ⟨st', e, hl⟩ | ⟨err, e, _, hneg⟩
    · have hp' : ∀ p, p <+: ts → (countClose p : Int) ≤ st'.indentLevel + countOpen p := by
        intro p hpre
        have := hp (t :: p) (by simpa using hpre)
        rw [countOpen_cons, countClose_cons] at this
        rw [hl]
        split_ifs at this ⊢ <;> push_cast at this ⊢ <;> omega
      obtain ⟨st'', e', hseen, hl'⟩ := ih st' hp'
      refine ⟨st'', by simp only [renderLoop, e, e'], by simp only [tokensSeen, e, hseen,
        List.length_cons], ?_⟩
      rw [hl', hl, countOpen_cons, countClose_cons]
      split_ifs <;> push_cast <;> omega
    · exfalso
      split_ifs at h1 hneg <;> push_cast at h1 hneg <;> omega

/-! ## Claims on the renderer, the modes and the boundaries -/

/-- A `}` without a `{` before it: the depth becomes -1 and `append` throws, so nothing
is written after the header. -/
theorem writeTokensToHtml_excess_close :
    (renderFinal [⟨['}'], .PUNCTUATION⟩]).indentLevel = -1 ∧
      writeTokensToHtml [⟨['}'], .PUNCTUATION⟩] = none := by
  decide

/-- C11: indentation balance in `writeTokensToHtml`. Whether the loop over the tokens ends
or is left by an exception, the indentation depth is the number of tokens with value `{`
minus the number of tokens with value `}` among the tokens seen so far. For a sequence in
which every prefix has at least as many `{` as `}`, the loop is not left, the depth after
every prefix is that difference and is not negative, and it is zero at the end of a
balanced sequence. -/
theorem writeTokensToHtml_indent (tokens : List Token) :
    (renderFinal tokens).indentLevel =
        (countOpen (tokens.take (tokensSeen tokens initRender)) : Int) -
          countClose (tokens.take (tokensSeen tokens initRender)) ∧
      ((∀ p, p <+: tokens → countClose p ≤ countOpen p) →
        (∀ p, p <+: tokens → ∃ st, renderLoop p initRender = .ok st ∧
            st.indentLevel = (countOpen p : Int) - countClose p ∧ 0 ≤ st.indentLevel) ∧
          tokensSeen tokens initRender = tokens.length ∧
          (countOpen tokens = countClose tokens → (renderFinal tokens).indentLevel = 0)) := by
  constructor
  · have h := renderLoop_indent tokens initRender
    simp only [initRender, zero_add] at h
    exact h
  · intro hbal
    have hok : ∀ p, p <+: tokens → ∃ st, renderLoop p initRender = .ok st ∧
        tokensSeen p initRender = p.length ∧
        st.indentLevel = (countOpen p : Int) - countClose p ∧ 0 ≤ st.indentLevel := by
      intro p hp
      obtain ⟨st, e, hseen, hl⟩ := renderLoop_ok p initRender (fun q hq => by
        have := hbal q (hq.trans hp)
        simp only [initRender, zero_add]
        exact_mod_cast this)
      simp only [initRender, zero_add] at hl
      have := hbal p hp
      exact ⟨st, e, hseen, hl, by rw [hl]; omega⟩
    refine ⟨fun p hp => ?_, ?_, ?_⟩
    · obtain ⟨st, e, _, hl, h0⟩ := hok p hp
      exact ⟨st, e, hl, h0⟩
    · obtain ⟨st, _, hseen, _, _⟩ := hok tokens (List.prefix_refl _)
      exact hseen
    · intro heq
      obtain ⟨st, e, _, hl, _⟩ := hok tokens (List.prefix_refl _)
      unfold renderFinal
      rw [e]
      simp only [renderOutcome, hl, heq]
      omega

/-- C12 (as stated, refuted): after the two characters of the input made of a double quote
and `#`, the flags insideString and insideDirective are both set. -/
theorem tokenizeLoop_two_modes :
    (tokenizeLoop 2 ['"', '#'] initState).insideString = true ∧
      (tokenizeLoop 2 ['"', '#'] initState).insideDirective = true ∧
      atMostOneMode (tokenizeLoop 2 ['"', '#'] initState) = false := by
  decide

/-! ## A `#` read inside a literal -/

theorem hashOutsideLiteral_succ (fuel : Nat) (c : Char) (rest : List Char) (st : ScanState) :
    hashOutsideLiteral (fuel + 1) (c :: rest) st = true ↔
      (c = '#' → st.insideString = false ∧ st.insideChar = false) ∧
        hashOutsideLiteral fuel (scanStep c rest st).1 (scanStep c rest st).2 = true := by
  rw [hashOutsideLiteral]
  by_cases hc : c = '#'
  · subst hc
    cases st.insideString <;> cases st.insideChar <;> simp
  · simp [hc]

/-- Invariant rule for the loop of `tokenize` on an input in which no `#` is read inside a
literal: a property that every such iteration keeps holds after any number of them. -/
theorem tokenizeLoop_inv_hash (P : ScanState → Prop)
    (hP : ∀ c rest st, (c = '#' → st.insideString = false ∧ st.insideChar = false) →
      P st → P (scanStep c rest st).2) :
    ∀ (fuel : Nat) (s : List Char) (st : ScanState),
      hashOutsideLiteral fuel s st = true → P st → P (tokenizeLoop fuel s st) := by
  intro fuel
  induction fuel with
  | zero => intro s st _ h; simpa [tokenizeLoop] using h
  | succ fuel ih =>
    intro s st hs h
    cases s with
    | nil => simpa [tokenizeLoop] using h
    | cons c rest =>
      obtain ⟨h1, h2⟩ := (hashOutsideLiteral_succ fuel c rest st).mp hs
      rw [tokenizeLoop_succ]
      exact ih _ _ h2 (hP c rest st h1 h)

/-- An input without `#` reads no `#` inside a literal. -/
theorem hashOutsideLiteral_of_no_hash (fuel : Nat) :
    ∀ (s : List Char) (st : ScanState), (∀ c ∈ s, c ≠ '#') →
      hashOutsideLiteral fuel s st = true := by
  induction fuel with
  | zero => intro s st _; simp [hashOutsideLiteral]
  | succ fuel ih =>
    intro s st hs
    cases s with
    | nil => rfl
    | cons c rest =>
      refine (hashOutsideLiteral_succ fuel c rest st).mpr
        ⟨fun hc => absurd hc (hs c (List.mem_cons_self _ _)), ih _ _ (fun x hx => ?_)⟩
      exact hs x (List.mem_cons_of_mem _ (scanStep_input_subset c rest st x hx))

/-- An input without quotes, scanned from outside every literal, reads no `#` inside a
literal. -/
theorem hashOutsideLiteral_of_no_quote (fuel : Nat) :
    ∀ (s : List Char) (st : ScanState), (∀ c ∈ s, c ≠ '"' ∧ c ≠ '\'') →
      st.insideString = false → st.insideChar = false →
      hashOutsideLiteral fuel s st = true := by
  induction fuel with
  | zero => intro s st _ _ _; simp [hashOutsideLiteral]
  | succ fuel ih =>
    intro s st hs hS hC
    cases s with
    | nil => rfl
    | cons c rest =>
      have hstep := scanStep_no_literal c rest st (hs c (List.mem_cons_self _ _)) ⟨hS, hC⟩
      refine (hashOutsideLiteral_succ fuel c rest st).mpr
        ⟨fun _ => ⟨hS, hC⟩, ih _ _ (fun x hx => ?_) hstep.1 hstep.2⟩
      exact hs x (List.mem_cons_of_mem _ (scanStep_input_subset c rest st x hx))

/-- An iteration that does not read a `#` inside a literal keeps at most one mode flag
set. -/
theorem scanStep_atMostOneMode (c : Char) (rest : List Char) (st : ScanState)
    (hH : c = '#' → st.insideString = false ∧ st.insideChar = false)
    (h : atMostOneMode st = true) : atMostOneMode (scanStep c rest st).2 = true := by
  rcases scanStep_cases c rest st with
    ⟨h1, e⟩ | ⟨h1, h2, h3, e⟩ | ⟨h1, h2, h3, e⟩ | ⟨h1, h2, h4, h5, e⟩ | ⟨h1, h2, h4, h5, e⟩ |
    ⟨h1, h2, h4a, h4b, h6, e⟩ | ⟨h1, h2, h4a, h4b, h6a, h6b, h'⟩
  · rw [e]
    obtain ⟨hS, hC⟩ := hH h1
    simp [atMostOneMode, hS, hC]
  · rw [e]
    simp only [atMostOneMode] at h ⊢
    rw [h2] at h
    revert h
    cases st.insideString <;> cases st.insideChar <;> simp
  · rw [e]; exact h
  · rw [e]; simp [atMostOneMode]
  · rw [e]
    simp only [atMostOneMode, h2]
    rcases h4 with rfl | rfl <;> decide
  · rw [e]; exact h
  · rcases h' with ⟨_, _, e⟩ | ⟨_, _, _, e⟩ | ⟨_, _, _, e⟩ | ⟨_, _, _, _, e⟩ | ⟨_, _, _, _, e⟩
    all_goals (rw [e]; exact h)

/-- When the flags stay exclusive through the first iterations, no `#` was read inside a
literal in them. -/
theorem hashOutsideLiteral_of_atMostOneMode (fuel : Nat) :
    ∀ (s : List Char) (st : ScanState),
      (∀ k, k ≤ fuel → atMostOneMode (tokenizeLoop k s st) = true) →
      hashOutsideLiteral fuel s st = true := by
  induction fuel with
  | zero => intro s st _; simp [hashOutsideLiteral]
  | succ fuel ih =>
    intro s st h
    cases s with
    | nil => rfl
    | cons c rest =>
      refine (hashOutsideLiteral_succ fuel c rest st).mpr ⟨fun hc => ?_, ih _ _ (fun k hk => ?_)⟩
      · have h1 := h 1 (by omega)
        rw [tokenizeLoop_succ] at h1
        simp only [tokenizeLoop] at h1
        rcases scanStep_cases c rest st with
          ⟨_, e⟩ | ⟨hn, _⟩ | ⟨hn, _⟩ | ⟨hn, _⟩ | ⟨hn, _⟩ | ⟨hn, _⟩ | ⟨hn, _⟩
        · rw [e] at h1
          simp only [atMostOneMode] at h1
          revert h1
          cases st.insideString <;> cases st.insideChar <;> simp
        all_goals exact absurd hc hn
      · have := h (k + 1) (by omega)
        rwa [tokenizeLoop_succ] at this

/-- C12 (amended): for every input and after every number `n` of iterations of the loop of
`tokenize`, insideString and insideChar are not both set; and at most one of the three
flags is set after `n` iterations when no `#` was read inside an open string or character
literal in them. That condition is the exact one: if the flags stay exclusive through the
first `n` iterations, no `#` was read inside a literal. An input without `#` meets it, and
never sets insideDirective. -/
theorem tokenizeLoop_modes (code : List Char) (n : Nat) :
    ¬ ((tokenizeLoop n code initState).insideString = true ∧
        (tokenizeLoop n code initState).insideChar = true) ∧
      (hashOutsideLiteral n code initState = true →
        atMostOneMode (tokenizeLoop n code initState) = true) ∧
      ((∀ k, k ≤ n → atMostOneMode (tokenizeLoop k code initState) = true) →
        hashOutsideLiteral n code initState = true) ∧
      ((∀ c ∈ code, c ≠ '#') →
        hashOutsideLiteral n code initState = true ∧
          (tokenizeLoop n code initState).insideDirective = false) := by
  refine ⟨?_, fun h => ?_, hashOutsideLiteral_of_atMostOneMode n code initState,
    fun hcode => ⟨hashOutsideLiteral_of_no_hash n code initState hcode, ?_⟩⟩
  · exact tokenizeLoop_inv (fun _ => True)
      (fun st => ¬ (st.insideString = true ∧ st.insideChar = true))
      (fun c rest st _ h => scanStep_string_char c rest st h) n code initState
      (fun _ _ => trivial) (by simp [initState])
  · exact tokenizeLoop_inv_hash (fun st => atMostOneMode st = true)
      (fun c rest st hH h => scanStep_atMostOneMode c rest st hH h) n code initState h rfl
  · exact tokenizeLoop_inv (fun c => c ≠ '#') (fun st => st.insideDirective = false)
      (fun c rest st hc h => scanStep_no_directive c rest st hc h) n code initState
      hcode rfl

/-- C12 (witness): an input of 29 characters with a directive line and a string literal:
in its 29 iterations no `#` is read inside a literal, and at most one flag is set at the
end. -/
theorem tokenizeLoop_modes_witness :
    hashOutsideLiteral 29 "#include <a.h>\nchar c = \"hi\";".toList initState = true ∧
      atMostOneMode
        (tokenizeLoop 29 "#include <a.h>\nchar c = \"hi\";".toList initState) = true :=
  ⟨by decide,
    (tokenizeLoop_modes "#include <a.h>\nchar c = \"hi\";".toList 29).2.1 (by decide)⟩

/-- C13 (as stated, refuted): on the input made of a double quote, `#`, a line feed and
`long long`, the `#` line leaves the scanner inside the string with an empty buffer, so
the two words are one lexeme, classified Keyword. -/
theorem tokenize_longLong_keyword :
    tokenize "\"#\nlong long".toList =
      [⟨"\"".toList, .UNKNOWN⟩, ⟨"#".toList, .UNKNOWN⟩, ⟨"long long".toList, .KEYWORD⟩] := by
  decide

/-- C13 (amended): for every input on which `tokenize` reads no `#` inside an open string
or character literal, `tokenize` produces no token whose value is `long long`. -/
theorem tokenize_no_longLong (code : List Char) (h : noHashInLiteral code = true) :
    ∀ t ∈ tokenize code, t.value ≠ "long long".toList :=
  longLongInv_flush _
    (tokenizeLoop_inv_hash longLongInv
      (fun c rest st hH hi => scanStep_longLong c rest st hH hi)
      code.length code initState h longLongInv_init)

/-- C13 (witness): an input with a directive line, `long long` and a string literal reads
no `#` inside a literal and gives no token with value `long long`. -/
theorem tokenize_no_longLong_witness :
    noHashInLiteral "#include <a.h>\nlong long n = \"x\";".toList = true ∧
      (∀ t ∈ tokenize "#include <a.h>\nlong long n = \"x\";".toList,
        t.value ≠ "long long".toList) :=
  ⟨by decide, tokenize_no_longLong "#include <a.h>\nlong long n = \"x\";".toList (by decide)⟩

/-- Inputs without `#`, and inputs without quotes, read no `#` inside a literal. -/
theorem noHashInLiteral_of_plain (code : List Char)
    (h : (∀ c ∈ code, c ≠ '#') ∨ (∀ c ∈ code, c ≠ '"' ∧ c ≠ '\'')) :
    noHashInLiteral code = true := by
  rcases h with h | h
  · exact hashOutsideLiteral_of_no_hash _ _ _ h
  · exact hashOutsideLiteral_of_no_quote _ _ _ h rfl rfl

/-- The inputs that refute C12 and C13 read a `#` inside a string literal. -/
theorem noHashInLiteral_refuting_inputs :
    hashOutsideLiteral 2 ['"', '#'] initState = false ∧
      noHashInLiteral "\"#\nlong long".toList = false := by
  decide

/-- C14 (as stated, refuted): the text `a#b` has no line feed, and scanning `#a#b` and a
line feed gives two tokens, `#a` and `#b`. -/
theorem tokenize_directive_second_hash :
    '\n' ∉ "a#b".toList ∧
      tokenize (['#'] ++ "a#b".toList ++ ['\n']) =
        [⟨"#a".toList, .UNKNOWN⟩, ⟨"#b".toList, .UNKNOWN⟩] := by
  decide

/-- C14 (amended): for every text `b` that contains no line feed and no `#`, scanning `#`,
`b` and a line feed gives exactly one token, whose value is `#` followed by `b`. -/
theorem tokenize_directive_mode (b : List Char) (hb : ∀ c ∈ b, c ≠ '\n' ∧ c ≠ '#') :
    ∃ t, tokenize (['#'] ++ b ++ ['\n']) = [t] ∧ t.value = ['#'] ++ b := by
  refine ⟨recognizeToken (['#'] ++ b), ?_, recognizeToken_value _⟩
  have h := tokenize_directive_line b (fun c hc => ⟨(hb c hc).2, (hb c hc).1⟩)
  simpa using h

/-- C14 (witness): `#define N 10` and a line feed is one token with that value. -/
theorem tokenize_directive_mode_witness :
    ∃ t, tokenize (['#'] ++ "define N 10".toList ++ ['\n']) = [t] ∧
      t.value = ['#'] ++ "define N 10".toList :=
  tokenize_directive_mode "define N 10".toList (by decide)

/-- A string literal at the start of the input is the first token, and the rest of the
input is scanned as if it stood alone. -/
theorem tokenize_string_then_rest (c r : List Char)
    (hc : ∀ x ∈ c, x ≠ '#' ∧ x ≠ '"' ∧ x ≠ '\'') :
    tokenize ('"' :: (c ++ '"' :: r)) = recognizeToken ('"' :: (c ++ ['"'])) :: tokenize r := by
  have h1 : tokenizeLoop ('"' :: (c ++ '"' :: r)).length ('"' :: (c ++ '"' :: r)) initState =
      tokenizeLoop ((r.length + 1) + c.length) (c ++ '"' :: r)
        { initState with token := ['"'], insideString := true } := by
    have hl : ('"' :: (c ++ '"' :: r)).length = ((r.length + 1) + c.length) + 1 := by
      simp only [List.length_cons, List.length_append]
      omega
    rw [hl, tokenizeLoop]
    simp [initState, flushPending]
  have h2 : tokenizeLoop (r.length + 1) ('"' :: r)
      { initState with token := '"' :: c, insideString := true } =
      tokenizeLoop r.length r
        (withEarlier [recognizeToken ('"' :: (c ++ ['"']))] initState) := by
    rw [tokenizeLoop]
    simp [initState, withEarlier]
  unfold tokenize
  rw [h1, tokenizeLoop_string c ('"' :: r) (r.length + 1) _ rfl rfl hc]
  simp only [List.singleton_append]
  rw [h2, tokenizeLoop_withEarlier]
  simp only [withEarlier]
  exact flushPending_append_left [recognizeToken ('"' :: (c ++ ['"']))] _ _

/-- C15: no escape handling. For every text `c` with none of the two quotes and `#`, and
every text `r`, the first token of `tokenize` applied to `c` between double quotes,
followed by `r`, has the value `c` between double quotes, also when `c` ends with a
backslash; the rest of the output is `tokenize r`. -/
theorem tokenize_string_first_token (c r : List Char)
    (hc : ∀ x ∈ c, x ≠ '"' ∧ x ≠ '\'' ∧ x ≠ '#') :
    (tokenize (['"'] ++ c ++ ['"'] ++ r)).head? = some (recognizeToken (['"'] ++ c ++ ['"'])) ∧
      (recognizeToken (['"'] ++ c ++ ['"'])).value = ['"'] ++ c ++ ['"'] ∧
      tokenize (['"'] ++ c ++ ['"'] ++ r) =
        recognizeToken (['"'] ++ c ++ ['"']) :: tokenize r := by
  have h := tokenize_string_then_rest c r
    (fun x hx => ⟨(hc x hx).2.2, (hc x hx).1, (hc x hx).2.1⟩)
  have e1 : ['"'] ++ c ++ ['"'] ++ r = '"' :: (c ++ '"' :: r) := by simp
  have e2 : ['"'] ++ c ++ ['"'] = '"' :: (c ++ ['"']) := by simp
  rw [e1, e2, h]
  exact ⟨rfl, recognizeToken_value _, rfl⟩

/-- C15 (witness): for the six characters `"a\"b"` the first token is the four characters
`"a\"`, of category String. -/
theorem tokenize_string_first_token_witness :
    ((tokenize (['"'] ++ ['a', '\\'] ++ ['"'] ++ ['b', '"'])).head? =
        some (recognizeToken (['"'] ++ ['a', '\\'] ++ ['"'])) ∧
      (recognizeToken (['"'] ++ ['a', '\\'] ++ ['"'])).value = ['"'] ++ ['a', '\\'] ++ ['"'] ∧
      tokenize (['"'] ++ ['a', '\\'] ++ ['"'] ++ ['b', '"']) =
        recognizeToken (['"'] ++ ['a', '\\'] ++ ['"']) :: tokenize ['b', '"']) ∧
      recognizeToken (['"'] ++ ['a', '\\'] ++ ['"']) = ⟨['"', 'a', '\\', '"'], .STRING⟩ :=
  ⟨tokenize_string_first_token ['a', '\\'] ['b', '"'] (by decide), by decide⟩

/-- C16: unterminated literal at the end of the input. For every text `c` with none of the
two quotes and `#`, `tokenize` applied to a double quote followed by `c` gives exactly one
token, whose value is the whole input and whose category is Unknown. -/
theorem tokenize_unterminated_string (c : List Char)
    (hc : ∀ x ∈ c, x ≠ '"' ∧ x ≠ '\'' ∧ x ≠ '#') :
    tokenize (['"'] ++ c) = [⟨['"'] ++ c, .UNKNOWN⟩] := by
  rw [List.singleton_append,
    tokenize_unterminated c (fun x hx => ⟨(hc x hx).2.2, (hc x hx).1, (hc x hx).2.1⟩),
    recognizeToken_unterminated c (fun x hx => (hc x hx).1)]

/-- C16 (witness): `"abc` without a closing quote is one Unknown token. -/
theorem tokenize_unterminated_string_witness :
    tokenize (['"'] ++ "abc".toList) = [⟨['"'] ++ "abc".toList, .UNKNOWN⟩] :=
  tokenize_unterminated_string "abc".toList (by decide)

/-- C17: operator precedes punctuation. `recognizeToken` gives the category Punctuation
exactly to the six one-character lexemes `,` `;` `(` `)` `{` `}`; the lexemes `<` and
`>` match the punctuation pattern as well, and are Operator. -/
theorem recognizeToken_punctuation (s : List Char) :
    ((recognizeToken s).type = .PUNCTUATION ↔
        s ∈ [",".toList, ";".toList, "(".toList, ")".toList, ['{'], ['}']]) ∧
      recognizeToken "<".toList = ⟨"<".toList, .OPERATOR⟩ ∧
      recognizeToken ">".toList = ⟨">".toList, .OPERATOR⟩ ∧
      punctuationRegex.rmatch "<".toList = true ∧
      punctuationRegex.rmatch ">".toList = true := by
  refine ⟨⟨fun h => ?_, fun h => ?_⟩, by decide, by decide, by decide, by decide⟩
  · obtain ⟨hop, hp⟩ := (recognizeToken_late_rules s).2 h
    obtain ⟨c, rfl, hc⟩ := (Regex.rmatch_cls _ _).mp hp
    rcases isPunctClass_cases c hc with rfl | rfl | rfl | rfl | rfl | rfl | rfl | rfl
    · decide
    · decide
    · decide
    · decide
    · decide
    · decide
    · exact absurd (by decide) hop
    · exact absurd (by decide) hop
  · revert s
    decide

/-- C18: for every input with none of `#` and the two quotes, every Operator token returned
by `tokenize` has a value of one character or the value `::`, and no token has one of the
two-character operator spellings `==`, `!=`, `>=`, `<=`, `&&`, `||` as its value. -/
theorem tokenize_operator_tokens (code : List Char)
    (h : ∀ c ∈ code, c ≠ '#' ∧ c ≠ '"' ∧ c ≠ '\'') :
    ∀ t ∈ tokenize code,
      (t.type = .OPERATOR → t.value.length = 1 ∨ t.value = "::".toList) ∧
        t.value ∉ ["==".toList, "!=".toList, ">=".toList, "<=".toList, "&&".toList,
          "||".toList] := by
  obtain ⟨_, hbuf, htok⟩ := tokenizeLoop_inv (fun c => c ≠ '#' ∧ c ≠ '"' ∧ c ≠ '\'')
    (fun st =>
      (st.insideString = false ∧ st.insideChar = false ∧ st.insideDirective = false) ∧
      (∀ x ∈ st.token, ¬ (ispunct x = true ∧ x ≠ '_' ∧ x ≠ '.')) ∧
      (∀ t ∈ st.tokens, operatorTokenOk t))
    (fun c rest st hc hi => scanStep_operator c rest st hc hi)
    code.length code initState h
    ⟨⟨rfl, rfl, rfl⟩, by simp [initState], by simp [initState]⟩
  exact forall_mem_flushPending _ _ _ htok
    (fun hne => ⟨fun hop => absurd hop (recognizeToken_buffer_not_operator _ hne hbuf),
      by rw [recognizeToken_value]; exact buffer_not_twoCharOperator _ hbuf⟩)

/-- C18 (witness): `a==b` gives the four tokens `a`, `=`, `=`, `b`. -/
theorem tokenize_operator_tokens_witness :
    (∀ t ∈ tokenize "a==b".toList,
      (t.type = .OPERATOR → t.value.length = 1 ∨ t.value = "::".toList) ∧
        t.value ∉ ["==".toList, "!=".toList, ">=".toList, "<=".toList, "&&".toList,
          "||".toList]) ∧
      tokenize "a==b".toList =
        [⟨"a".toList, .IDENTIFIER⟩, ⟨"=".toList, .OPERATOR⟩, ⟨"=".toList, .OPERATOR⟩,
         ⟨"b".toList, .IDENTIFIER⟩] :=
  ⟨tokenize_operator_tokens "a==b".toList (by decide), by decide⟩

/-- C19: whitespace is a clean token boundary. For every text `a` with none of `#`, the two
quotes and `/`, and every text `b`, `tokenize` applied to `a`, one space and `b` gives the
tokens of `a` followed by the tokens of `b`. -/
theorem tokenize_space (a b : List Char)
    (ha : ∀ c ∈ a, c ≠ '#' ∧ c ≠ '"' ∧ c ≠ '\'' ∧ c ≠ '/') :
    tokenize (a ++ [' '] ++ b) = tokenize a ++ tokenize b := by
  have e : a ++ [' '] ++ b = a ++ ' ' :: b := by simp
  obtain ⟨hrun, hS, hC, hD⟩ := tokenizeLoop_before_space b a.length a initState
    (Nat.le_refl _) ha rfl rfl rfl (a ++ ' ' :: b).length (Nat.le_refl _)
  have hstep : ∀ st : ScanState, st.insideString = false → st.insideChar = false →
      st.insideDirective = false →
      tokenizeLoop (b.length + 1) (' ' :: b) st =
        tokenizeLoop b.length b (withEarlier (flushPending st.tokens st.token) initState) := by
    intro st hS hC hD
    obtain ⟨tokens, token, iS, iC, iD⟩ := st
    simp only at hS hC hD
    subst hS hC hD
    rw [tokenizeLoop]
    simp [withEarlier, initState, isspace]
  have hta : tokenize a =
      flushPending (tokenizeLoop a.length a initState).tokens
        (tokenizeLoop a.length a initState).token := rfl
  rw [hta]
  unfold tokenize
  rw [e, hrun, hstep _ hS hC hD, tokenizeLoop_withEarlier]
  simp only [withEarlier]
  exact flushPending_append_left _ _ _

/-- C19 (witness): `int x`, a space and `= 1` give the tokens of `int x` followed by the
tokens of `= 1`. -/
theorem tokenize_space_witness :
    tokenize ("int x".toList ++ [' '] ++ "= 1".toList) =
      tokenize "int x".toList ++ tokenize "= 1".toList :=
  tokenize_space "int x".toList "= 1".toList (by decide)

/-- C20: for every input, every token returned by `tokenize` has a non-empty value; and at
every iteration of the loop, in directive mode the buffer that a line feed would flush is
not empty. -/
theorem tokenize_values_nonempty (code : List Char) :
    (∀ t ∈ tokenize code, t.value ≠ []) ∧
      ∀ n, (tokenizeLoop n code initState).insideDirective = true →
        (tokenizeLoop n code initState).token ≠ [] := by
  refine ⟨?_, fun n => (tokenizeLoop_nonempty n code).2⟩
  exact forall_mem_flushPending _ _ _ (tokenizeLoop_nonempty code.length code).1
    (fun hne => by rwa [recognizeToken_value])

end SPLab3
